import Mathlib

/-!
Verification of the transcript normalization and document-generation
subsystem of the lecture-transcription pipeline.

The Python sources are shallowly embedded: Python `str` values become Lean
`String`s (manipulated through their underlying `List Char`), Python floats
carrying seconds values become rationals `ℚ`, file writes become returned
strings, and the remote authoring collaborator becomes an explicit outcome
value.  Each embedded definition is a direct transliteration of the
correspondingly named function of the source.
-/

namespace Transcription

/-! ### Python string primitives (semantics of `str` methods used by the code) -/

/-- Characters considered whitespace by Python's `str.strip` / `\s`. -/
def isPySpace (c : Char) : Bool :=
  c = ' ' || c = '\t' || c = '\n' || c = '\x0d' || c = '\x0b' || c = '\x0c'

/-- Word characters for the regex class `\w` (ASCII): letters, digits, underscore. -/
def isWordChar (c : Char) : Bool :=
  ('a' ≤ c && c ≤ 'z') || ('A' ≤ c && c ≤ 'Z') || ('0' ≤ c && c ≤ '9') || c = '_'

/-- ASCII letters, the regex class `[a-zA-Z]`. -/
def isAsciiLetter (c : Char) : Bool :=
  ('a' ≤ c && c ≤ 'z') || ('A' ≤ c && c ≤ 'Z')

/-- ASCII lowering of one character, as done by Python's `str.lower` on ASCII text. -/
def pyLowerChar (c : Char) : Char :=
  if 'A' ≤ c && c ≤ 'Z' then Char.ofNat (c.toNat + 32) else c

/-- Python `str.lower` (ASCII fragment). -/
def pyLowerL (l : List Char) : List Char :=
  l.map pyLowerChar

/-- Python `str.strip()`: drop whitespace from both ends. -/
def pyStripL (l : List Char) : List Char :=
  ((l.dropWhile isPySpace).reverse.dropWhile isPySpace).reverse

/-- Python `s.split("\n")`: split at every newline, keeping empty pieces. -/
def splitLinesL : List Char → List (List Char)
  | [] => [[]]
  | c :: rest =>
    if c = '\n' then [] :: splitLinesL rest
    else
      match splitLinesL rest with
      | [] => [[c]]
      | p :: ps => (c :: p) :: ps

/-- Python `s.split("\n\n")`: split at every non-overlapping occurrence of a
blank line, scanning left to right. -/
def splitOnBlankL : List Char → List (List Char)
  | [] => [[]]
  | [c] => [[c]]
  | c :: d :: rest =>
    if c = '\n' && d = '\n' then [] :: splitOnBlankL rest
    else
      match splitOnBlankL (d :: rest) with
      | [] => [[c]]
      | p :: ps => (c :: p) :: ps

/-- Python `sep.join(pieces)` on char lists. -/
def joinWithL (sep : List Char) : List (List Char) → List Char
  | [] => []
  | [p] => p
  | p :: ps => p ++ sep ++ joinWithL sep ps

/-- Python `s.split()` with no argument: split on whitespace runs, no empty pieces. -/
def pySplitWsL : List Char → List (List Char)
  | [] => []
  | [c] => if isPySpace c then [] else [[c]]
  | c :: d :: rest =>
    if isPySpace c then pySplitWsL (d :: rest)
    else if isPySpace d then [c] :: pySplitWsL (d :: rest)
    else
      match pySplitWsL (d :: rest) with
      | [] => [[c]]
      | p :: ps => (c :: p) :: ps

/-- Whether the text contains a blank line (two consecutive newlines). -/
def hasBlankL : List Char → Bool
  | [] => false
  | [_] => false
  | c :: d :: rest => (c = '\n' && d = '\n') || hasBlankL (d :: rest)

/-- String-level wrappers. -/
def pyStrip (s : String) : String := ⟨pyStripL s.data⟩

def pyLower (s : String) : String := ⟨pyLowerL s.data⟩

def pySplitWs (s : String) : List String := (pySplitWsL s.data).map String.mk

/-! ### Rendering of integers (Python `%d` / f-string formatting) -/

/-- Decimal digits, fuel-driven so that the kernel can evaluate it. -/
def natDigitsGo : Nat → Nat → List Char
  | 0, _ => []
  | fuel + 1, n =>
    if n < 10 then [Char.ofNat (48 + n)]
    else natDigitsGo fuel (n / 10) ++ [Char.ofNat (48 + n % 10)]

/-- Decimal digits of a natural number, most significant first. -/
def natDigits (n : Nat) : List Char := natDigitsGo (n + 1) n

/-- Python `f"{n:0wd}"` for a natural number: left-pad with zeros to width `w`. -/
def padNat (w : Nat) (n : Nat) : List Char :=
  List.replicate (w - (natDigits n).length) '0' ++ natDigits n

/-- Python `f"{z:0wd}"` for an integer: the sign counts toward the width. -/
def padInt (w : Nat) (z : Int) : List Char :=
  if z < 0 then '-' :: padNat (w - 1) z.natAbs else padNat w z.toNat

/-! ### Subtitle codec (`transcriber.py`) -/

/-- One Whisper segment: `{"start": float, "end": float, "text": str}`.
Times are embedded as rationals. -/
structure Segment where
  start : ℚ
  endTime : ℚ
  text : String
  deriving DecidableEq

/-- Python `int(...)` applied to a float value: truncation toward zero. -/
def pyInt (q : ℚ) : ℤ :=
  if q < 0 then ⌈q⌉ else ⌊q⌋

/-- Python float floor-division `a // n`. -/
def pyFloorDiv (a : ℚ) (n : ℚ) : ℤ := ⌊a / n⌋

/-- Python float modulo `a % n` (sign of the divisor; here positive divisors). -/
def pyMod (a : ℚ) (n : ℚ) : ℚ := a - n * ⌊a / n⌋

/-- `Transcriber._seconds_to_srt_time`, components only:
`hours = int(seconds // 3600)`, `minutes = int((seconds % 3600) // 60)`,
`secs = int(seconds % 60)`, `milliseconds = int((seconds - int(seconds)) * 1000)`. -/
def srtHours (s : ℚ) : ℤ := pyFloorDiv s 3600

def srtMinutes (s : ℚ) : ℤ := pyFloorDiv (pyMod s 3600) 60

def srtSecs (s : ℚ) : ℤ := pyInt (pyMod s 60)

def srtMillis (s : ℚ) : ℤ := pyInt ((s - pyInt s) * 1000)

/-- `Transcriber._seconds_to_srt_time`:
`f"{hours:02d}:{minutes:02d}:{secs:02d},{milliseconds:03d}"`. -/
def secondsToSrtTime (s : ℚ) : String :=
  ⟨padInt 2 (srtHours s) ++ ':' :: padInt 2 (srtMinutes s) ++
    ':' :: padInt 2 (srtSecs s) ++ ',' :: padInt 3 (srtMillis s)⟩

/-- The three lines written for one kept segment of 1-based index `i`
(`f"{i}\n"`, `f"{start_time} --> {end_time}\n"`, `f"{text}\n\n"`). -/
def srtBlockChars (i : Nat) (seg : Segment) : List Char :=
  natDigits i ++ '\n' :: (secondsToSrtTime seg.start).data ++
    ' ' :: '-' :: '-' :: '>' :: ' ' :: (secondsToSrtTime seg.endTime).data ++
    '\n' :: pyStripL seg.text.data

/-- The loop body of `Transcriber._write_srt_from_segments`: iterate with
`enumerate(segments, 1)`, strip each text, skip empty texts, otherwise write
the block followed by a blank line. -/
def writeSrtAux (i : Nat) : List Segment → List Char
  | [] => []
  | seg :: rest =>
    if pyStripL seg.text.data = [] then writeSrtAux (i + 1) rest
    else srtBlockChars i seg ++ '\n' :: '\n' :: writeSrtAux (i + 1) rest

/-- `Transcriber._write_srt_from_segments`, with the file contents returned
as a string. -/
def writeSrtFromSegments (segments : List Segment) : String :=
  ⟨writeSrtAux 1 segments⟩

/-- `Transcriber.extract_text_from_srt`, with the file contents passed as a
string: strip; empty means empty; split into blocks on blank lines; a block
with at least 3 lines contributes its lines after the first two, joined by
newlines; blocks are joined by single spaces. -/
def extractTextFromSrt (content : String) : String :=
  if pyStripL content.data = [] then ⟨[]⟩
  else
    let blocks := splitOnBlankL (pyStripL content.data)
    let textPieces := blocks.filterMap fun block =>
      let lines := splitLinesL (pyStripL block)
      if 3 ≤ lines.length then some (joinWithL ['\n'] (lines.drop 2)) else none
    ⟨joinWithL [' '] textPieces⟩

/-! ### Generic regex fragments used by `text_processor.py` / `latex_generator.py`

The sources use `re.sub` only with fixed word-boundary alternations
(case-insensitive) and with fixed character-class collapses; each is
transliterated as a specialised scanner. -/

/-- Whether `needle` occurs at the very front of the text (Python `str.startswith`,
also the anchored step of substring search). -/
def isSeqAt : List Char → List Char → Bool
  | [], _ => true
  | _ :: _, [] => false
  | n :: ns, c :: cs => n = c && isSeqAt ns cs

/-- Python `needle in hay` substring containment. -/
def containsSeqL (needle : List Char) : List Char → Bool
  | [] => needle.isEmpty
  | c :: cs => isSeqAt needle (c :: cs) || containsSeqL needle cs

/-- `re.sub(r"\s+", " ", text)`: collapse each whitespace run to one space. -/
def collapseWsL : List Char → List Char
  | [] => []
  | [c] => if isPySpace c then [' '] else [c]
  | c :: d :: rest =>
    if isPySpace c && isPySpace d then collapseWsL (d :: rest)
    else (if isPySpace c then ' ' else c) :: collapseWsL (d :: rest)

/-- Collapse runs (of length at least 2) of the character `t` to a single `t`:
`re.sub(r"[,]{2,}", ",", text)` and `re.sub(r"[.]{2,}", ".", text)`. -/
def collapseRunsOf (t : Char) : List Char → List Char
  | [] => []
  | [c] => [c]
  | c :: d :: rest =>
    if c = t && d = t then collapseRunsOf t (d :: rest)
    else c :: collapseRunsOf t (d :: rest)

/-- Apply `f` to every maximal run of `\w` characters, fuel-driven. -/
def mapWordsGo (f : List Char → List Char) : Nat → List Char → List Char
  | 0, _ => []
  | _, [] => []
  | fuel + 1, c :: rest =>
    if isWordChar c then
      f (c :: rest.takeWhile isWordChar) ++ mapWordsGo f fuel (rest.dropWhile isWordChar)
    else c :: mapWordsGo f fuel rest

/-- Apply `f` to every maximal run of `\w` characters of the text. -/
def mapWords (f : List Char → List Char) (l : List Char) : List Char :=
  mapWordsGo f (l.length + 1) l

/-- The word rewrite of `re.sub(r"\b(\w)\1{2,}\b", r"\1\1", text)`: a whole
word made of three or more copies of one character becomes two copies.
(The pattern requires word boundaries on both sides, hence whole words.) -/
def collapseRepeatedWord : List Char → List Char
  | [] => []
  | c :: cs => if 2 ≤ cs.length && cs.all (· = c) then [c, c] else c :: cs

/-- The word rewrite of `re.sub(r"\b[a-zA-Z]\b", "", text)`: a whole word
that is a single ASCII letter is deleted. -/
def dropSingleLetterWord : List Char → List Char
  | [c] => if isAsciiLetter c then [] else [c]
  | w => w

/-- Python `s.replace(t, repl)` for a single-character pattern `t`. -/
def pyReplaceCharL (t : Char) (repl : List Char) : List Char → List Char
  | [] => []
  | c :: cs => if c = t then repl ++ pyReplaceCharL t repl cs else c :: pyReplaceCharL t repl cs

/-- `\b` holds before the matched word character: start of text or a
preceding non-word character. -/
def boundaryOk : Option Char → Bool
  | none => true
  | some c => !isWordChar c

/-- `\b` holds after the final matched word character: end of text or a
following non-word character. -/
def afterOk : List Char → Bool
  | [] => true
  | c :: _ => !isWordChar c

/-- Case-insensitive anchored match of one alternative; returns the matched
original characters and the remaining text. -/
def matchCaseless : List Char → List Char → Option (List Char × List Char)
  | [], l => some ([], l)
  | _ :: _, [] => none
  | p :: ps, c :: cs =>
    if pyLowerChar c = pyLowerChar p then
      match matchCaseless ps cs with
      | some (m, rest) => some (c :: m, rest)
      | none => none
    else none

/-- Try the alternatives of the pattern in order at the current position,
with `\b` required on both sides (all alternatives begin and end with word
characters). -/
def tryPats (pats : List (List Char)) (prev : Option Char) (l : List Char) :
    Option (List Char × List Char) :=
  match pats with
  | [] => none
  | p :: ps =>
    match matchCaseless p l with
    | some (m, rest) =>
      if boundaryOk prev && afterOk rest then some (m, rest) else tryPats ps prev l
    | none => tryPats ps prev l

/-- `re.sub(r"\b(alt1|alt2|...)\b", repl, text, flags=re.IGNORECASE)`:
left-to-right non-overlapping scan; `repl` receives the matched original
text. Fuel-driven for kernel evaluation. -/
def reSubGo (pats : List (List Char)) (repl : List Char → List Char) :
    Nat → Option Char → List Char → List Char
  | 0, _, _ => []
  | _, _, [] => []
  | fuel + 1, prev, c :: cs =>
    match tryPats pats prev (c :: cs) with
    | some (m, rest) =>
      repl m ++ reSubGo pats repl fuel
        (match m.getLast? with | some x => some x | none => prev) rest
    | none => c :: reSubGo pats repl fuel (some c) cs

/-- Entry point of the word-boundary substitution scanner. -/
def reSubWb (pats : List (List Char)) (repl : List Char → List Char)
    (l : List Char) : List Char :=
  reSubGo pats repl (l.length + 1) none l

/-! ### Transcript normalizer (`text_processor.py`) -/

/-- `TextProcessor._clean_text`: collapse whitespace, collapse repeated-letter
words, remove single letters, collapse comma and period runs, strip. -/
def cleanTextL (l : List Char) : List Char :=
  pyStripL (collapseRunsOf '.' (collapseRunsOf ','
    (mapWords dropSingleLetterWord (mapWords collapseRepeatedWord (collapseWsL l)))))

def cleanText (s : String) : String := ⟨cleanTextL s.data⟩

/-- The eight filler patterns of `TextProcessor._remove_fillers`, in source
order; each inner list is the alternation of one `re.sub` call. -/
def fillerPatterns : List (List String) :=
  [["um", "uh", "ah", "er"],
   ["you know"],
   ["I mean"],
   ["basically"],
   ["actually"],
   ["okay so"],
   ["alright so"],
   ["so um"]]

/-- `TextProcessor._remove_fillers`: apply the eight pattern substitutions in
order with empty replacement, then collapse whitespace and strip. -/
def removeFillersL (l : List Char) : List Char :=
  pyStripL (collapseWsL
    (fillerPatterns.foldl (fun acc pats => reSubWb (pats.map String.data) (fun _ => []) acc) l))

def removeFillers (s : String) : String := ⟨removeFillersL s.data⟩

/-- `string.punctuation` from the Python standard library. -/
def punctuationChars : String :=
  "!\"#$%&\x27()*+,-./:;<=>?@[\\]^_\x60\x7b|\x7d~"

/-- The fixed academic stop-word set added by `TextProcessor.__init__`. -/
def academicStopwords : List String :=
  ["um", "uh", "ah", "er", "you know", "like", "so", "okay", "alright",
   "well", "now", "today", "here"]

/-- Python `s.endswith((".", "!", "?"))`. -/
def endsWithTerminalL (l : List Char) : Bool :=
  match l.getLast? with
  | some c => c = '.' || c = '!' || c = '?'
  | none => false

def endsWithTerminal (s : String) : Bool := endsWithTerminalL s.data

/-- The content words of a sentence (`_process_sentence` lines 125-130): the
tokens of the lowercased sentence that are neither stop words nor substrings
of `string.punctuation` (the source's `w not in string.punctuation`). -/
def contentWordsOf (wordTok : String → List String) (stopWords : List String)
    (sentence : String) : List String :=
  (wordTok (pyLower sentence)).filter fun w =>
    !stopWords.contains w && !containsSeqL w.data punctuationChars.data

/-- `TextProcessor._process_sentence`. The NLTK word tokenizer is an external
collaborator and is passed as `wordTok`; `stopWords` is the union of the
external English stop-word corpus with `academicStopwords`. -/
def processSentence (wordTok : String → List String) (stopWords : List String)
    (sentence : String) : Option String :=
  let contentWords := contentWordsOf wordTok stopWords sentence
  if contentWords.length < 2 then none
  else
    let s := pyStrip sentence
    some (if endsWithTerminal s then s else ⟨s.data ++ ['.']⟩)

/-- The transition-marker vocabulary of `TextProcessor._is_topic_transition`. -/
def transitionWords : List String :=
  ["now", "next", "moving on", "let\x27s", "another", "furthermore",
   "however", "on the other hand", "in contrast", "meanwhile"]

/-- `TextProcessor._is_topic_transition`: true when the lowercased next
sentence contains any transition word (the current sentence is unused by
the source). -/
def isTopicTransition (currentSentence nextSentence : String) : Bool :=
  transitionWords.any fun w => containsSeqL w.data (pyLower nextSentence).data

/-- The loop of `TextProcessor._create_paragraphs`: grow the buffer; close it
when it has at least 4 sentences and this is the last sentence or the next
sentence is a topic transition; leftover buffer becomes a final paragraph. -/
def cpAux (buf : List String) : List String → List (List String)
  | [] => if buf.isEmpty then [] else [buf]
  | s :: rest =>
    let buf2 := buf ++ [s]
    if 4 ≤ buf2.length && (rest.isEmpty || isTopicTransition s (rest.headD ⟨[]⟩)) then
      buf2 :: cpAux [] rest
    else cpAux buf2 rest

/-- The paragraphs built by `TextProcessor._create_paragraphs`, before joining. -/
def paragraphsList (sentences : List String) : List (List String) :=
  cpAux [] sentences

/-- `TextProcessor._create_paragraphs`: empty input gives `""`; paragraphs are
sentence lists joined by single spaces, and the document joins paragraphs
with blank lines. -/
def createParagraphs (sentences : List String) : String :=
  if sentences.isEmpty then ⟨[]⟩
  else ⟨joinWithL ['\n', '\n']
    ((paragraphsList sentences).map fun p => joinWithL [' '] (p.map String.data))⟩

/-- The sentence filtering of `TextProcessor.process_text` steps 3: sentences
with fewer than 3 whitespace-separated tokens are skipped; the rest go
through `_process_sentence` and survive when the (always non-empty) result is
truthy. The NLTK sentence tokenizer is the external collaborator `sentTok`. -/
def survivingSentences (sentTok : String → List String)
    (wordTok : String → List String) (stopWords : List String)
    (text : String) : List String :=
  (sentTok (removeFillers (cleanText text))).filterMap fun sentence =>
    if (pySplitWs sentence).length < 3 then none
    else
      match processSentence wordTok stopWords sentence with
      | none => none
      | some p => if p = ⟨[]⟩ then none else some p

/-- `TextProcessor.process_text`: clean, de-fill, sentence-split, filter,
then rebuild paragraphs. -/
def processText (sentTok : String → List String)
    (wordTok : String → List String) (stopWords : List String)
    (text : String) : String :=
  createParagraphs (survivingSentences sentTok wordTok stopWords text)

/-! ### Document generator (`latex_generator.py`) -/

/-- `LaTeXGenerator._create_prompt`: reads the prompt template resource
(`prompt_template.txt`, modelled by the argument `template` since the
resource file is not under `src/`) and returns it. The source never
interpolates `text` or `title` into the template. -/
def createPrompt (template text title : String) : String :=
  template

def lbrace : Char := Char.ofNat 123

def rbrace : Char := Char.ofNat 125

/-- The escaping chain of `LaTeXGenerator._format_paragraph_for_latex`:
seven sequential `str.replace` calls, in source order `& % $ # _ { }`. -/
def escapeLatexL (l : List Char) : List Char :=
  pyReplaceCharL rbrace ['\\', rbrace]
    (pyReplaceCharL lbrace ['\\', lbrace]
      (pyReplaceCharL '_' ['\\', '_']
        (pyReplaceCharL '#' ['\\', '#']
          (pyReplaceCharL '$' ['\\', '$']
            (pyReplaceCharL '%' ['\\', '%']
              (pyReplaceCharL '&' ['\\', '&'] l))))))

/-- The keyword set of the bold-emphasis substitution. -/
def boldKeywords : List String :=
  ["definition", "theorem", "important", "key", "main", "primary"]

/-- The bold-emphasis pass:
`re.sub(r"\b(definition|...)\b", r"\textbf{\1}", paragraph, flags=re.IGNORECASE)`. -/
def boldPassL (l : List Char) : List Char :=
  reSubWb (boldKeywords.map String.data)
    (fun m => "\\textbf".data ++ lbrace :: m ++ [rbrace]) l

/-- `LaTeXGenerator._format_paragraph_for_latex`: escape, then bold. -/
def formatParagraphForLatex (paragraph : String) : String :=
  ⟨boldPassL (escapeLatexL paragraph.data)⟩

/-- Modelled from the spec: the fixed document template resource
`template_latex.tex` is not under `src/`; §4.3 describes it as a fixed
document template into which the title, the current date and the body are
substituted (`template.format(title=..., date=..., body=...)`), always
yielding a non-empty document. It is modelled as a fixed non-empty LaTeX
skeleton with the three substitution slots. -/
def renderLatexTemplate (title date body : String) : String :=
  ⟨("\\documentclass".data ++ lbrace :: "article".data ++ rbrace :: "\n\\title".data ++
      lbrace :: title.data ++ rbrace :: "\n\\date".data ++ lbrace :: date.data ++
      rbrace :: "\n\\begin".data ++ lbrace :: "document".data ++ rbrace :: "\n\\maketitle\n".data) ++
    body.data ++
    ("\\end".data ++ lbrace :: "document".data ++ rbrace :: ['\n'])⟩

/-- The body loop of `LaTeXGenerator._generate_template_notes`:
`body += f"\\section{{Topic {i}}}\n{self._format_paragraph_for_latex(para)}\n\n"`
with `enumerate(paragraphs[:5], 1)`. -/
def templateBodyAux (i : Nat) : List String → List Char
  | [] => []
  | p :: ps =>
    "\\section".data ++ lbrace :: "Topic ".data ++ natDigits i ++
      rbrace :: '\n' :: (formatParagraphForLatex p).data ++
      '\n' :: '\n' :: templateBodyAux (i + 1) ps

/-- `LaTeXGenerator._generate_template_notes` (with the current date passed
in, since `datetime.now()` is environment input): take the first 5 non-empty
stripped blocks split on blank lines, emit their sections, and substitute
into the template. -/
def generateTemplateNotes (date text title : String) : String :=
  let paragraphs := ((splitOnBlankL text.data).map pyStripL).filter (· ≠ []) |>.map String.mk
  let body := templateBodyAux 1 (paragraphs.take 5)
  renderLatexTemplate title date ⟨body⟩

/-- The three observable outcomes of the authoring collaborator, per the
spec's design note: the credential may be absent, the remote call may return
text, or it may raise. -/
inductive AuthorOutcome where
  | absent
  | authored (s : String)
  | failed
  deriving DecidableEq

/-- `LaTeXGenerator.generate_notes`, with the written file contents returned:
without a client the template path is taken; a successful remote call is
written verbatim; any raising call falls back to the template path. (The
prompt built by `_create_prompt` does not influence the result.) -/
def generateNotes (outcome : AuthorOutcome) (date processedText title : String) : String :=
  match outcome with
  | .absent => generateTemplateNotes date processedText title
  | .authored s => s
  | .failed => generateTemplateNotes date processedText title

/-! ### Concrete tokenizer instances

The NLTK sentence and word tokenizers and the English stop-word corpus are
external collaborators; the pipeline defs above take them as parameters.
The instances below are simple concrete stand-ins used to exercise the
pipeline on closed inputs: sentences split after terminal punctuation,
word tokens are `\w` runs or single punctuation characters. -/

def sentSplitGo : List Char → List (List Char)
  | [] => [[]]
  | c :: rest =>
    let ps := sentSplitGo rest
    if c = '.' || c = '!' || c = '?' then [c] :: ps
    else
      match ps with
      | [] => [[c]]
      | p :: ps2 => (c :: p) :: ps2

/-- A concrete sentence tokenizer: split after `.`/`!`/`?`, strip pieces,
drop empty pieces. -/
def demoSentTok (s : String) : List String :=
  (((sentSplitGo s.data).map pyStripL).filter (· ≠ [])).map String.mk

def wordTokGo : Nat → List Char → List (List Char)
  | 0, _ => []
  | _, [] => []
  | fuel + 1, c :: cs =>
    if isWordChar c then
      (c :: cs.takeWhile isWordChar) :: wordTokGo fuel (cs.dropWhile isWordChar)
    else if isPySpace c then wordTokGo fuel cs
    else [c] :: wordTokGo fuel cs

/-- A concrete word tokenizer: maximal `\w` runs, single non-space symbols. -/
def demoWordTok (s : String) : List String :=
  (wordTokGo (s.data.length + 1) s.data).map String.mk

/-- A small concrete English stop-word list joined with the source's fixed
academic stop words, standing in for the external stop-word corpus. -/
def demoStopWords : List String :=
  ["the", "a", "an", "is", "are", "was", "of", "to", "and", "in", "you",
   "it", "this", "that"] ++ academicStopwords

/-! ## Theorems -/

/-! ### C1: the prompt builder (code bug: no substitution happens) -/

lemma isSeqAt_length_le {needle l : List Char} (h : isSeqAt needle l = true) :
    needle.length ≤ l.length := by
  induction needle generalizing l with
  | nil => simp
  | cons n ns ih =>
    cases l with
    | nil => simp [isSeqAt] at h
    | cons c cs =>
      simp only [isSeqAt, Bool.and_eq_true] at h
      simpa using ih h.2

lemma containsSeqL_length_le {needle l : List Char} (h : containsSeqL needle l = true) :
    needle.length ≤ l.length := by
  induction l with
  | nil =>
    simp only [containsSeqL, List.isEmpty_iff] at h
    simp [h]
  | cons c cs ih =>
    simp only [containsSeqL, Bool.or_eq_true] at h
    rcases h with h | h
    · exact isSeqAt_length_le h
    · exact le_trans (ih h) (by simp)

/-- C1. The claim states that `_create_prompt` substitutes the title and the
full normalized text into the prompt template, so that the built prompt
contains the entire normalized text as a substring.  The source merely reads
the template and returns it unchanged, never interpolating: whatever the
template resource contains, there is a normalized text (one character longer
than the template) that cannot occur in the built prompt. -/
theorem createPrompt_no_substitution :
    ∀ template title : String,
      createPrompt template ⟨template.data ++ ['x']⟩ title = template ∧
      containsSeqL (template.data ++ ['x'])
        (createPrompt template ⟨template.data ++ ['x']⟩ title).data = false := by
  intro template title
  refine ⟨rfl, ?_⟩
  by_contra h
  have h' : containsSeqL (template.data ++ ['x']) template.data = true := by
    simpa [createPrompt] using Bool.of_not_eq_false h
  have := containsSeqL_length_le h'
  simp at this

/-! ### C3: the document generator never yields an empty document (corrected) -/

lemma generateTemplateNotes_ne_empty (date text title : String) :
    generateTemplateNotes date text title ≠ ⟨[]⟩ := by
  intro h
  have : (generateTemplateNotes date text title).data = [] := congrArg String.data h
  simp [generateTemplateNotes, renderLatexTemplate] at this

/-- C3 counterexample. The claim asserts a non-empty document for every
outcome of the authoring collaborator when the input text is non-empty; but
a successful remote call returning the empty string is written verbatim,
yielding an empty document. -/
theorem generateNotes_empty_on_empty_authored :
    generateNotes (AuthorOutcome.authored ⟨[]⟩) ("June 01, 2025") ("hello")
      ("Lecture Notes") = ⟨[]⟩ ∧ ("hello" : String) ≠ ⟨[]⟩ :=
  ⟨rfl, by decide⟩

/-- C3 (amended). For every non-empty input text and title and every
authoring outcome other than a successful call returning the empty string,
document generation returns a non-empty document; an absent credential or a
raising call degrades to the deterministic template path. -/
theorem generateNotes_nonempty (outcome : AuthorOutcome) (date text title : String)
    (htext : text ≠ ⟨[]⟩) (hauth : outcome ≠ AuthorOutcome.authored ⟨[]⟩) :
    generateNotes outcome date text title ≠ ⟨[]⟩ ∧
    generateNotes AuthorOutcome.absent date text title =
      generateTemplateNotes date text title ∧
    generateNotes AuthorOutcome.failed date text title =
      generateTemplateNotes date text title := by
  refine ⟨?_, rfl, rfl⟩
  cases outcome with
  | absent => exact generateTemplateNotes_ne_empty date text title
  | failed => exact generateTemplateNotes_ne_empty date text title
  | authored s =>
    intro h
    exact hauth (by simpa [generateNotes] using congrArg (AuthorOutcome.authored ·) h)

/-- C3 witness: the amended theorem applied at a concrete failing collaborator. -/
theorem generateNotes_nonempty_witness :
    generateNotes AuthorOutcome.failed ("June 01, 2025") ("hello") ("Lecture Notes") ≠ ⟨[]⟩ ∧
    generateNotes AuthorOutcome.absent ("June 01, 2025") ("hello") ("Lecture Notes") =
      generateTemplateNotes ("June 01, 2025") ("hello") ("Lecture Notes") ∧
    generateNotes AuthorOutcome.failed ("June 01, 2025") ("hello") ("Lecture Notes") =
      generateTemplateNotes ("June 01, 2025") ("hello") ("Lecture Notes") :=
  generateNotes_nonempty AuthorOutcome.failed ("June 01, 2025") ("hello")
    ("Lecture Notes") (by decide) (by decide)

/-! ### Strip, split and join lemmas for the subtitle codec -/

/-- The right-strip half of Python `str.strip`. -/
def stripRightL (l : List Char) : List Char :=
  (l.reverse.dropWhile isPySpace).reverse

lemma pyStripL_eq_stripRight (l : List Char) :
    pyStripL l = stripRightL (l.dropWhile isPySpace) := rfl

/-- No newline occurs in the text. -/
def noNlL (l : List Char) : Bool := l.all (· ≠ '\n')

lemma dropWhile_head?_not {p : Char → Bool} {l : List Char} {c : Char}
    (h : (l.dropWhile p).head? = some c) : p c = false := by
  induction l with
  | nil => simp at h
  | cons a l ih =>
    by_cases ha : p a
    · rw [List.dropWhile_cons_of_pos ha] at h
      exact ih h
    · rw [List.dropWhile_cons_of_neg ha] at h
      cases h
      simpa using ha

lemma dropWhile_eq_self_of_head {p : Char → Bool} {l : List Char}
    (h : ∀ c, l.head? = some c → p c = false) : l.dropWhile p = l := by
  cases l with
  | nil => rfl
  | cons a l => exact List.dropWhile_cons_of_neg (by simp [h a rfl])

lemma stripRightL_getLast?_not {l : List Char} {c : Char}
    (h : (stripRightL l).getLast? = some c) : isPySpace c = false := by
  rw [stripRightL, List.getLast?_reverse] at h
  exact dropWhile_head?_not h

lemma stripRightL_eq_self {m : List Char}
    (h : ∀ c, m.getLast? = some c → isPySpace c = false) : stripRightL m = m := by
  rw [stripRightL, dropWhile_eq_self_of_head, List.reverse_reverse]
  intro c hc
  rw [List.head?_reverse] at hc
  exact h c hc

lemma stripRightL_append_nn {X : List Char} {c : Char}
    (hc : X.getLast? = some c) (hws : isPySpace c = false) :
    stripRightL (X ++ ['\n', '\n']) = X := by
  rw [stripRightL, List.reverse_append]
  have hrev : X.reverse.head? = some c := by rw [List.head?_reverse]; exact hc
  cases hX : X.reverse with
  | nil => rw [hX] at hrev; cases hrev
  | cons a t =>
    rw [hX] at hrev
    have ha : a = c := by cases hrev; rfl
    show ((['\n', '\n'].reverse ++ (a :: t)).dropWhile isPySpace).reverse = X
    have : (['\n', '\n'].reverse ++ (a :: t)).dropWhile isPySpace = a :: t := by
      show (('\n' : Char) :: '\n' :: a :: t).dropWhile isPySpace = a :: t
      rw [List.dropWhile_cons_of_pos (by decide), List.dropWhile_cons_of_pos (by decide),
        List.dropWhile_cons_of_neg (by simp [ha, hws])]
    rw [this, ← hX, List.reverse_reverse]

lemma pyStripL_getLast?_not {l : List Char} {c : Char}
    (h : (pyStripL l).getLast? = some c) : isPySpace c = false :=
  stripRightL_getLast?_not (l := l.dropWhile isPySpace) h

lemma dropWhile_eq_drop (p : Char → Bool) (l : List Char) :
    ∃ n, l.dropWhile p = l.drop n := by
  induction l with
  | nil => exact ⟨0, rfl⟩
  | cons x xs ih =>
    by_cases hx : p x
    · obtain ⟨n, hn⟩ := ih
      exact ⟨n + 1, by rw [List.dropWhile_cons_of_pos hx, hn]; rfl⟩
    · exact ⟨0, by rw [List.dropWhile_cons_of_neg hx]; rfl⟩

lemma head?_take {l : List Char} {n : Nat} {c : Char}
    (h : (l.take n).head? = some c) : l.head? = some c := by
  cases n with
  | zero => simp at h
  | succ n =>
    cases l with
    | nil => simp at h
    | cons a t => simpa using h

lemma stripRightL_head? {m : List Char} {c : Char}
    (h : (stripRightL m).head? = some c) : m.head? = some c := by
  obtain ⟨n, hn⟩ := dropWhile_eq_drop isPySpace m.reverse
  rw [stripRightL, hn, List.drop_reverse, List.reverse_reverse] at h
  exact head?_take h

lemma pyStripL_head?_not {l : List Char} {c : Char}
    (h : (pyStripL l).head? = some c) : isPySpace c = false := by
  rw [pyStripL_eq_stripRight] at h
  exact dropWhile_head?_not (stripRightL_head? h)

lemma pyStripL_eq_self {l : List Char}
    (hhead : ∀ c, l.head? = some c → isPySpace c = false)
    (hlast : ∀ c, l.getLast? = some c → isPySpace c = false) : pyStripL l = l := by
  rw [pyStripL_eq_stripRight, dropWhile_eq_self_of_head hhead]
  exact stripRightL_eq_self hlast

lemma joinWithL_cons_cons (sep p q : List Char) (ps : List (List Char)) :
    joinWithL sep (p :: q :: ps) = p ++ sep ++ joinWithL sep (q :: ps) := rfl

lemma joinWithL_cons_char (sep : List Char) (c : Char) (p : List Char)
    (ps : List (List Char)) :
    joinWithL sep ((c :: p) :: ps) = c :: joinWithL sep (p :: ps) := by
  cases ps with
  | nil => rfl
  | cons q qs => rfl

lemma splitLinesL_ne_nil (l : List Char) : splitLinesL l ≠ [] := by
  cases l with
  | nil => simp [splitLinesL]
  | cons c rest =>
    by_cases h : c = '\n'
    · simp [splitLinesL, h]
    · simp only [splitLinesL, if_neg h]
      cases splitLinesL rest <;> simp

lemma joinWithL_splitLinesL (l : List Char) :
    joinWithL ['\n'] (splitLinesL l) = l := by
  induction l with
  | nil => rfl
  | cons c rest ih =>
    rcases hs : splitLinesL rest with _ | ⟨p, ps⟩
    · exact absurd hs (splitLinesL_ne_nil rest)
    · rw [hs] at ih
      by_cases h : c = '\n'
      · subst h
        have : splitLinesL ('\n' :: rest) = [] :: p :: ps := by
          simp [splitLinesL, hs]
        rw [this, joinWithL_cons_cons]
        simpa using ih
      · have : splitLinesL (c :: rest) = (c :: p) :: ps := by
          simp [splitLinesL, if_neg h, hs]
        rw [this, joinWithL_cons_char, ih]

lemma splitLinesL_append_of_noNl {A : List Char} (h : noNlL A = true) (R : List Char) :
    splitLinesL (A ++ '\n' :: R) = A :: splitLinesL R := by
  induction A with
  | nil => simp [splitLinesL]
  | cons c A' ih =>
    rw [noNlL, List.all_cons, Bool.and_eq_true] at h
    have hc : ¬(c = '\n') := by simpa using h.1
    show splitLinesL (c :: (A' ++ '\n' :: R)) = (c :: A') :: splitLinesL R
    simp only [splitLinesL, if_neg hc]
    rw [ih h.2]

lemma hasBlankL_cons_cons (c d : Char) (rest : List Char) :
    hasBlankL (c :: d :: rest) = ((c = '\n' && d = '\n') || hasBlankL (d :: rest)) := rfl

lemma hasBlankL_append_of_noNl {A B : List Char} (hA : noNlL A = true) :
    hasBlankL (A ++ B) = hasBlankL B := by
  induction A with
  | nil => rfl
  | cons c A' ih =>
    rw [noNlL, List.all_cons, Bool.and_eq_true] at hA
    have hc : (c = '\n') = False := by simpa using hA.1
    cases A' with
    | nil =>
      cases B with
      | nil => rfl
      | cons e B' =>
        show hasBlankL (c :: e :: B') = hasBlankL (e :: B')
        rw [hasBlankL_cons_cons]
        simp [hc]
    | cons d A'' =>
      have : hasBlankL (c :: (d :: A'') ++ B) = hasBlankL ((d :: A'') ++ B) := by
        rw [List.cons_append, List.cons_append, hasBlankL_cons_cons, ← List.cons_append]
        simp [hc]
      rw [this]
      exact ih hA.2

lemma hasBlankL_cons_nl {B : List Char} (h : ∀ c, B.head? = some c → c ≠ '\n') :
    hasBlankL ('\n' :: B) = hasBlankL B := by
  cases B with
  | nil => rfl
  | cons e B' =>
    rw [hasBlankL_cons_cons]
    have : (e = '\n') = False := by simpa using h e rfl
    simp [this]

lemma splitOnBlankL_of_not_hasBlank {l : List Char} (h : hasBlankL l = false) :
    splitOnBlankL l = [l] := by
  induction l with
  | nil => rfl
  | cons c rest ih =>
    cases rest with
    | nil => rfl
    | cons d rest' =>
      rw [hasBlankL_cons_cons, Bool.or_eq_false_iff] at h
      show splitOnBlankL (c :: d :: rest') = [c :: d :: rest']
      simp only [splitOnBlankL, h.1, ih h.2]
      simp

lemma splitOnBlankL_append_nn {b : List Char} (r : List Char)
    (hb : hasBlankL b = false)
    (hlast : ∀ c, b.getLast? = some c → c ≠ '\n') :
    splitOnBlankL (b ++ '\n' :: '\n' :: r) = b :: splitOnBlankL r := by
  induction b with
  | nil =>
    show splitOnBlankL ('\n' :: '\n' :: r) = [] :: splitOnBlankL r
    simp [splitOnBlankL]
  | cons c b' ih =>
    cases b' with
    | nil =>
      have hc : (c = '\n') = False := by simpa using hlast c rfl
      show splitOnBlankL (c :: '\n' :: '\n' :: r) = [c] :: splitOnBlankL r
      simp only [splitOnBlankL, hc, decide_False, Bool.false_and, if_false]
      simp [splitOnBlankL]
    | cons d b'' =>
      rw [hasBlankL_cons_cons, Bool.or_eq_false_iff] at hb
      have hl : ∀ c', (d :: b'').getLast? = some c' → c' ≠ '\n' := by
        intro c' hc'
        refine hlast c' ?_
        rw [List.getLast?_cons_cons]
        exact hc'
      show splitOnBlankL (c :: (d :: b'') ++ '\n' :: '\n' :: r) =
        (c :: d :: b'') :: splitOnBlankL r
      have hcd : (c = '\n' && d = '\n') = false := hb.1
      have hrec := ih hb.2 hl
      rw [List.cons_append] at hrec
      rw [List.cons_append, List.cons_append]
      simp only [splitOnBlankL, hcd, List.append_eq] at hrec ⊢
      rw [hrec]
      simp

lemma splitOnBlankL_joinWithL {bs : List (List Char)} (hne : bs ≠ [])
    (h : ∀ b ∈ bs, hasBlankL b = false ∧ ∀ c, b.getLast? = some c → c ≠ '\n') :
    splitOnBlankL (joinWithL ['\n', '\n'] bs) = bs := by
  induction bs with
  | nil => exact absurd rfl hne
  | cons b bs' ih =>
    cases bs' with
    | nil =>
      show splitOnBlankL b = [b]
      exact splitOnBlankL_of_not_hasBlank (h b (by simp)).1
    | cons b2 rest =>
      rw [joinWithL_cons_cons]
      have hb := h b (by simp)
      have step : b ++ ['\n', '\n'] ++ joinWithL ['\n', '\n'] (b2 :: rest) =
          b ++ '\n' :: '\n' :: joinWithL ['\n', '\n'] (b2 :: rest) := by
        simp
      rw [step, splitOnBlankL_append_nn _ hb.1 hb.2]
      rw [ih (by simp) (fun x hx => h x (by simp [hx]))]

/-! ### Character facts about rendered indices and timecodes -/

def digitChars : List Char := ['0', '1', '2', '3', '4', '5', '6', '7', '8', '9']

lemma ofNat_digit_mem : ∀ m, m < 10 → Char.ofNat (48 + m) ∈ digitChars := by decide

lemma natDigitsGo_mem : ∀ fuel n c, c ∈ natDigitsGo fuel n → c ∈ digitChars := by
  intro fuel
  induction fuel with
  | zero => intro n c h; simp [natDigitsGo] at h
  | succ f ih =>
    intro n c h
    rw [natDigitsGo] at h
    by_cases hn : n < 10
    · rw [if_pos hn] at h
      simp only [List.mem_singleton] at h
      subst h
      exact ofNat_digit_mem n hn
    · rw [if_neg hn] at h
      rcases List.mem_append.1 h with h | h
      · exact ih _ _ h
      · simp only [List.mem_singleton] at h
        subst h
        exact ofNat_digit_mem _ (Nat.mod_lt _ (by omega))

lemma natDigits_mem {n : Nat} {c : Char} (h : c ∈ natDigits n) : c ∈ digitChars :=
  natDigitsGo_mem _ _ _ h

lemma natDigitsGo_ne_nil (f n : Nat) : natDigitsGo (f + 1) n ≠ [] := by
  rw [natDigitsGo]
  split <;> simp

lemma natDigits_ne_nil (n : Nat) : natDigits n ≠ [] := natDigitsGo_ne_nil n n

lemma natDigits_noNl (n : Nat) : noNlL (natDigits n) = true := by
  rw [noNlL, List.all_eq_true]
  intro c hc
  have := natDigits_mem hc
  revert this
  have : ∀ x ∈ digitChars, decide (x ≠ '\n') = true := by decide
  exact this c

lemma padNat_mem {w n : Nat} {c : Char} (h : c ∈ padNat w n) : c ∈ digitChars := by
  rw [padNat] at h
  rcases List.mem_append.1 h with h | h
  · rw [List.eq_of_mem_replicate h]; decide
  · exact natDigits_mem h

lemma padNat_ne_nil (w n : Nat) : padNat w n ≠ [] := by
  rw [padNat]
  intro h
  exact natDigits_ne_nil n (List.append_eq_nil.1 h).2

lemma padInt_mem {w : Nat} {z : Int} {c : Char} (h : c ∈ padInt w z) :
    c ∈ '-' :: digitChars := by
  rw [padInt] at h
  split at h
  · rcases List.mem_cons.1 h with h | h
    · simp [h]
    · exact List.mem_cons_of_mem _ (padNat_mem h)
  · exact List.mem_cons_of_mem _ (padNat_mem h)

lemma padInt_ne_nil (w : Nat) (z : Int) : padInt w z ≠ [] := by
  rw [padInt]
  split
  · simp
  · exact padNat_ne_nil _ _

lemma secondsToSrtTime_mem {q : ℚ} {c : Char} (h : c ∈ (secondsToSrtTime q).data) :
    c ∈ '-' :: ':' :: ',' :: digitChars := by
  have hpad : ∀ {w : Nat} {z : Int}, c ∈ padInt w z → c ∈ '-' :: ':' :: ',' :: digitChars := by
    intro w z hm
    have := padInt_mem hm
    simp only [List.mem_cons] at this ⊢
    tauto
  have hsplit : c ∈ padInt 2 (srtHours q) ∨ c = ':' ∨ c ∈ padInt 2 (srtMinutes q) ∨
      c = ':' ∨ c ∈ padInt 2 (srtSecs q) ∨ c = ',' ∨ c ∈ padInt 3 (srtMillis q) := by
    simpa [secondsToSrtTime, List.mem_append, List.mem_cons, or_assoc] using h
  rcases hsplit with hm | hm | hm | hm | hm | hm | hm
  · exact hpad hm
  · simp [hm]
  · exact hpad hm
  · simp [hm]
  · exact hpad hm
  · simp [hm]
  · exact hpad hm

/-- The timestamp line of one subtitle block: `f"{start_time} --> {end_time}"`. -/
def timeLineL (a b : ℚ) : List Char :=
  (secondsToSrtTime a).data ++ ' ' :: '-' :: '-' :: '>' :: ' ' :: (secondsToSrtTime b).data

lemma srtBlockChars_eq (i : Nat) (seg : Segment) :
    srtBlockChars i seg =
      natDigits i ++ '\n' :: (timeLineL seg.start seg.endTime ++ '\n' :: pyStripL seg.text.data) := by
  simp [srtBlockChars, timeLineL]

lemma timeLineL_noNl (a b : ℚ) : noNlL (timeLineL a b) = true := by
  rw [noNlL, List.all_eq_true]
  intro c hc
  simp only [timeLineL, List.mem_append, List.mem_cons] at hc
  have hd : ∀ x ∈ ('-' :: ':' :: ',' :: digitChars : List Char), decide (x ≠ '\n') = true := by
    decide
  rcases hc with h | h | h | h | h | h
  · exact hd c (secondsToSrtTime_mem h)
  · simp [h]
  · simp [h]
  · simp [h]
  · simp [h]
  · rcases h with h | h
    · simp [h]
    · exact hd c (secondsToSrtTime_mem h)

lemma timeLineL_ne_nil (a b : ℚ) : timeLineL a b ≠ [] := by
  rw [timeLineL]
  simp

lemma timeLineL_head?_not_nl {a b : ℚ} {c : Char} (h : (timeLineL a b).head? = some c) :
    c ≠ '\n' := by
  intro hc
  subst hc
  have : ('\n' : Char) ∈ timeLineL a b := by
    cases hl : timeLineL a b with
    | nil => rw [hl] at h; cases h
    | cons x xs =>
      rw [hl] at h
      cases h
      simp
  have := timeLineL_noNl a b
  rw [noNlL, List.all_eq_true] at this
  simpa using this _ ‹('\n' : Char) ∈ timeLineL a b›

/-! ### Structure of the written subtitle file -/

lemma head?_append_left {A B : List Char} (h : A ≠ []) : (A ++ B).head? = A.head? := by
  cases A with
  | nil => exact absurd rfl h
  | cons a t => rfl

lemma getLast?_cons_of_ne {c : Char} {l : List Char} (h : l ≠ []) :
    (c :: l).getLast? = l.getLast? := by
  cases l with
  | nil => exact absurd rfl h
  | cons b t => exact List.getLast?_cons_cons

lemma isPySpace_nl : isPySpace '\n' = true := by decide

lemma srtBlockChars_ne_nil (i : Nat) (seg : Segment) : srtBlockChars i seg ≠ [] := by
  rw [srtBlockChars_eq]
  intro h
  exact natDigits_ne_nil i (List.append_eq_nil.1 h).1

lemma srtBlockChars_head?_not {i : Nat} {seg : Segment} {c : Char}
    (h : (srtBlockChars i seg).head? = some c) : isPySpace c = false := by
  rw [srtBlockChars_eq, head?_append_left (natDigits_ne_nil i)] at h
  have hc : c ∈ natDigits i := by
    cases hl : natDigits i with
    | nil => exact absurd hl (natDigits_ne_nil i)
    | cons x xs =>
      rw [hl] at h
      cases h
      simp
  have := natDigits_mem hc
  revert this
  have hall : ∀ x ∈ digitChars, isPySpace x = false := by decide
  exact hall c

lemma srtBlockChars_getLast? {i : Nat} {seg : Segment}
    (hne : pyStripL seg.text.data ≠ []) :
    (srtBlockChars i seg).getLast? = (pyStripL seg.text.data).getLast? := by
  rw [srtBlockChars_eq]
  rw [List.getLast?_append_of_ne_nil _ (by simp)]
  rw [getLast?_cons_of_ne (by simp [hne])]
  rw [List.getLast?_append_of_ne_nil _ (by simp [hne])]
  exact getLast?_cons_of_ne hne

lemma srtBlockChars_getLast?_not {i : Nat} {seg : Segment} {c : Char}
    (hne : pyStripL seg.text.data ≠ [])
    (h : (srtBlockChars i seg).getLast? = some c) : isPySpace c = false := by
  rw [srtBlockChars_getLast? hne] at h
  exact pyStripL_getLast?_not h

lemma srtBlockChars_hasBlank {i : Nat} {seg : Segment}
    (hne : pyStripL seg.text.data ≠ [])
    (hnb : hasBlankL (pyStripL seg.text.data) = false) :
    hasBlankL (srtBlockChars i seg) = false := by
  rw [srtBlockChars_eq]
  rw [hasBlankL_append_of_noNl (natDigits_noNl i)]
  rw [hasBlankL_cons_nl]
  · rw [hasBlankL_append_of_noNl (timeLineL_noNl _ _)]
    rw [hasBlankL_cons_nl]
    · exact hnb
    · intro c hc he
      subst he
      have := pyStripL_head?_not hc
      rw [isPySpace_nl] at this
      cases this
  · intro c hc
    rw [head?_append_left (timeLineL_ne_nil _ _)] at hc
    exact timeLineL_head?_not_nl hc

lemma srtBlockChars_lines {i : Nat} {seg : Segment} :
    splitLinesL (srtBlockChars i seg) =
      natDigits i :: timeLineL seg.start seg.endTime :: splitLinesL (pyStripL seg.text.data) := by
  rw [srtBlockChars_eq]
  rw [splitLinesL_append_of_noNl (natDigits_noNl i)]
  rw [splitLinesL_append_of_noNl (timeLineL_noNl _ _)]

lemma srtBlockChars_strip {i : Nat} {seg : Segment}
    (hne : pyStripL seg.text.data ≠ []) :
    pyStripL (srtBlockChars i seg) = srtBlockChars i seg := by
  refine pyStripL_eq_self (fun c hc => srtBlockChars_head?_not hc)
    (fun c hc => srtBlockChars_getLast?_not hne hc)

/-- The kept `(index, segment)` pairs of the writer loop. -/
def keptAux (i : Nat) : List Segment → List (Nat × Segment)
  | [] => []
  | seg :: rest =>
    if pyStripL seg.text.data = [] then keptAux (i + 1) rest
    else (i, seg) :: keptAux (i + 1) rest

/-- The trimmed non-empty segment texts, in order. -/
def keptTexts (segs : List Segment) : List (List Char) :=
  segs.filterMap fun seg =>
    if pyStripL seg.text.data = [] then none else some (pyStripL seg.text.data)

lemma keptAux_texts (i : Nat) (segs : List Segment) :
    (keptAux i segs).map (fun p => pyStripL p.2.text.data) = keptTexts segs := by
  induction segs generalizing i with
  | nil => rfl
  | cons seg rest ih =>
    rw [keptAux, keptTexts, List.filterMap_cons]
    by_cases h : pyStripL seg.text.data = []
    · rw [if_pos h, if_pos h]
      exact ih (i + 1)
    · rw [if_neg h, if_neg h, List.map_cons]
      rw [ih (i + 1)]
      rfl

lemma keptAux_eq_enumFrom (i : Nat) (segs : List Segment) :
    keptAux i segs =
      (List.enumFrom i segs).filter (fun p => !decide (pyStripL p.2.text.data = [])) := by
  induction segs generalizing i with
  | nil => rfl
  | cons seg rest ih =>
    rw [keptAux, List.enumFrom, List.filter_cons]
    by_cases h : pyStripL seg.text.data = []
    · rw [if_pos h]
      simp only [h, decide_True, Bool.not_true, if_false]
      exact ih (i + 1)
    · rw [if_neg h]
      simp only [h, decide_False, Bool.not_false, if_true]
      rw [ih (i + 1)]

lemma keptAux_mem_ne {i : Nat} {segs : List Segment} :
    ∀ p ∈ keptAux i segs, pyStripL p.2.text.data ≠ [] := by
  induction segs generalizing i with
  | nil => intro p hp; cases hp
  | cons seg rest ih =>
    intro p hp
    rw [keptAux] at hp
    by_cases h : pyStripL seg.text.data = []
    · rw [if_pos h] at hp
      exact ih p hp
    · rw [if_neg h] at hp
      rcases List.mem_cons.1 hp with he | hp
      · subst he; exact h
      · exact ih p hp

lemma keptAux_mem_hasBlank {i : Nat} {segs : List Segment}
    (hsegs : ∀ seg ∈ segs, hasBlankL (pyStripL seg.text.data) = false) :
    ∀ p ∈ keptAux i segs, hasBlankL (pyStripL p.2.text.data) = false := by
  induction segs generalizing i with
  | nil => intro p hp; cases hp
  | cons seg rest ih =>
    intro p hp
    rw [keptAux] at hp
    have hrest : ∀ s ∈ rest, hasBlankL (pyStripL s.text.data) = false :=
      fun s hs => hsegs s (List.mem_cons_of_mem _ hs)
    by_cases h : pyStripL seg.text.data = []
    · rw [if_pos h] at hp
      exact ih hrest p hp
    · rw [if_neg h] at hp
      rcases List.mem_cons.1 hp with he | hp
      · subst he; exact hsegs seg (by simp)
      · exact ih hrest p hp

/-- The kept rendered blocks of the writer loop. -/
def blocksAux (i : Nat) : List Segment → List (List Char)
  | [] => []
  | seg :: rest =>
    if pyStripL seg.text.data = [] then blocksAux (i + 1) rest
    else srtBlockChars i seg :: blocksAux (i + 1) rest

lemma blocksAux_eq_map (i : Nat) (segs : List Segment) :
    blocksAux i segs = (keptAux i segs).map (fun p => srtBlockChars p.1 p.2) := by
  induction segs generalizing i with
  | nil => rfl
  | cons seg rest ih =>
    rw [blocksAux, keptAux]
    by_cases h : pyStripL seg.text.data = []
    · rw [if_pos h, if_pos h]
      exact ih (i + 1)
    · rw [if_neg h, if_neg h, List.map_cons]
      rw [ih (i + 1)]

lemma writeSrtAux_eq_foldr (i : Nat) (segs : List Segment) :
    writeSrtAux i segs = (blocksAux i segs).foldr (fun b acc => b ++ '\n' :: '\n' :: acc) [] := by
  induction segs generalizing i with
  | nil => rfl
  | cons seg rest ih =>
    rw [writeSrtAux, blocksAux]
    by_cases h : pyStripL seg.text.data = []
    · rw [if_pos h, if_pos h]
      exact ih (i + 1)
    · rw [if_neg h, if_neg h, List.foldr_cons]
      rw [ih (i + 1)]

lemma foldr_blocks_eq_join {bs : List (List Char)} (h : bs ≠ []) :
    bs.foldr (fun b acc => b ++ '\n' :: '\n' :: acc) [] =
      joinWithL ['\n', '\n'] bs ++ ['\n', '\n'] := by
  induction bs with
  | nil => exact absurd rfl h
  | cons b bs' ih =>
    cases bs' with
    | nil => rfl
    | cons b2 rest =>
      rw [List.foldr_cons, ih (by simp), joinWithL_cons_cons]
      simp

lemma joinWithL_ne_nil {bs : List (List Char)} (hne : bs ≠ [])
    (h : ∀ b ∈ bs, b ≠ []) : joinWithL ['\n', '\n'] bs ≠ [] := by
  cases bs with
  | nil => exact absurd rfl hne
  | cons b bs' =>
    cases bs' with
    | nil => exact h b (by simp)
    | cons b2 rest =>
      rw [joinWithL_cons_cons]
      intro hcontra
      exact h b (by simp) (List.append_eq_nil.1 (List.append_eq_nil.1 hcontra).1).1

lemma joinWithL_head? {b : List Char} {bs : List (List Char)} (h : b ≠ []) :
    (joinWithL ['\n', '\n'] (b :: bs)).head? = b.head? := by
  cases bs with
  | nil => rfl
  | cons b2 rest =>
    rw [joinWithL_cons_cons, List.append_assoc]
    exact head?_append_left h

lemma joinWithL_getLast?_not {bs : List (List Char)} (hne : bs ≠ [])
    (h : ∀ b ∈ bs, b ≠ [] ∧ ∀ c, b.getLast? = some c → isPySpace c = false) :
    ∀ c, (joinWithL ['\n', '\n'] bs).getLast? = some c → isPySpace c = false := by
  induction bs with
  | nil => exact absurd rfl hne
  | cons b bs' ih =>
    cases bs' with
    | nil =>
      intro c hc
      exact (h b (by simp)).2 c hc
    | cons b2 rest =>
      intro c hc
      rw [joinWithL_cons_cons, List.append_assoc] at hc
      have hJ : joinWithL ['\n', '\n'] (b2 :: rest) ≠ [] :=
        joinWithL_ne_nil (by simp) (fun x hx => (h x (by simp [hx])).1)
      rw [List.getLast?_append_of_ne_nil _ (by simp [hJ])] at hc
      rw [List.getLast?_append_of_ne_nil _ hJ] at hc
      exact ih (by simp) (fun x hx => h x (by simp [hx])) c hc

lemma pyStrip_join_append_nn {bs : List (List Char)} (hne : bs ≠ [])
    (hprops : ∀ b ∈ bs, b ≠ [] ∧
      (∀ c, b.head? = some c → isPySpace c = false) ∧
      (∀ c, b.getLast? = some c → isPySpace c = false)) :
    pyStripL (joinWithL ['\n', '\n'] bs ++ ['\n', '\n']) = joinWithL ['\n', '\n'] bs := by
  have hJne : joinWithL ['\n', '\n'] bs ≠ [] :=
    joinWithL_ne_nil hne (fun b hb => (hprops b hb).1)
  rw [pyStripL_eq_stripRight]
  have hheadJ : ∀ c, (joinWithL ['\n', '\n'] bs).head? = some c → isPySpace c = false := by
    cases bs with
    | nil => exact absurd rfl hne
    | cons b bs' =>
      intro c hc
      rw [joinWithL_head? (hprops b (by simp)).1] at hc
      exact (hprops b (by simp)).2.1 c hc
  rw [dropWhile_eq_self_of_head]
  · have hlastJ := joinWithL_getLast?_not hne
      (fun b hb => ⟨(hprops b hb).1, (hprops b hb).2.2⟩)
    obtain ⟨c, hc⟩ : ∃ c, (joinWithL ['\n', '\n'] bs).getLast? = some c := by
      cases hJ : joinWithL ['\n', '\n'] bs with
      | nil => exact absurd hJ hJne
      | cons x xs => exact ⟨(x :: xs).getLast (by simp), List.getLast?_eq_getLast _ _⟩
    exact stripRightL_append_nn hc (hlastJ c hc)
  · intro c hc
    rw [head?_append_left hJne] at hc
    exact hheadJ c hc

lemma filterMap_congr_map {α β : Type _} {f : α → Option β} {g : α → β} {l : List α}
    (h : ∀ x ∈ l, f x = some (g x)) : l.filterMap f = l.map g := by
  induction l with
  | nil => rfl
  | cons a t ih =>
    rw [List.filterMap_cons, h a (by simp), List.map_cons]
    rw [ih (fun x hx => h x (by simp [hx]))]

lemma blocksAux_props {segs : List Segment}
    (h : ∀ seg ∈ segs, hasBlankL (pyStripL seg.text.data) = false) :
    ∀ b ∈ blocksAux 1 segs, b ≠ [] ∧
      (∀ c, b.head? = some c → isPySpace c = false) ∧
      (∀ c, b.getLast? = some c → isPySpace c = false) ∧
      hasBlankL b = false ∧
      (∀ c, b.getLast? = some c → c ≠ '\n') := by
  intro b hb
  rw [blocksAux_eq_map] at hb
  obtain ⟨p, hp, rfl⟩ := List.mem_map.1 hb
  have hne := keptAux_mem_ne p hp
  have hnb := keptAux_mem_hasBlank h p hp
  refine ⟨srtBlockChars_ne_nil _ _, fun c hc => srtBlockChars_head?_not hc,
    fun c hc => srtBlockChars_getLast?_not hne hc,
    srtBlockChars_hasBlank hne hnb, ?_⟩
  intro c hc he
  subst he
  have := srtBlockChars_getLast?_not hne hc
  rw [isPySpace_nl] at this
  cases this

set_option maxHeartbeats 2000000 in
/-- C4 (amended).  Encode-then-decode through the subtitle codec yields the
trimmed non-empty segment texts in order, joined by single spaces, for all
choices of timecode values, provided no trimmed segment text contains a
blank line; the empty segment list encodes to the empty string and decodes
back to the empty string. -/
theorem srt_encode_decode (segs : List Segment)
    (h : ∀ seg ∈ segs, hasBlankL (pyStripL seg.text.data) = false) :
    extractTextFromSrt (writeSrtFromSegments segs) = ⟨joinWithL [' '] (keptTexts segs)⟩ ∧
    writeSrtFromSegments [] = ⟨[]⟩ ∧ extractTextFromSrt ⟨[]⟩ = ⟨[]⟩ := by
  refine ⟨?_, rfl, by decide⟩
  rcases hk : keptAux 1 segs with _ | ⟨p0, krest⟩
  · have hb : blocksAux 1 segs = [] := by rw [blocksAux_eq_map, hk]; rfl
    have hw : writeSrtAux 1 segs = [] := by rw [writeSrtAux_eq_foldr, hb]; rfl
    have ht : keptTexts segs = [] := by rw [← keptAux_texts 1, hk]; rfl
    rw [writeSrtFromSegments, hw, ht]
    decide
  · have hkne : keptAux 1 segs ≠ [] := by rw [hk]; simp
    have hbsne : blocksAux 1 segs ≠ [] := by
      rw [blocksAux_eq_map, hk]
      simp
    have hprops := blocksAux_props h
    have hJ : writeSrtAux 1 segs =
        joinWithL ['\n', '\n'] (blocksAux 1 segs) ++ ['\n', '\n'] := by
      rw [writeSrtAux_eq_foldr, foldr_blocks_eq_join hbsne]
    have hstrip : pyStripL (writeSrtFromSegments segs).data =
        joinWithL ['\n', '\n'] (blocksAux 1 segs) := by
      show pyStripL (writeSrtAux 1 segs) = _
      rw [hJ]
      exact pyStrip_join_append_nn hbsne
        (fun b hb => ⟨(hprops b hb).1, (hprops b hb).2.1, (hprops b hb).2.2.1⟩)
    have hJne : joinWithL ['\n', '\n'] (blocksAux 1 segs) ≠ [] :=
      joinWithL_ne_nil hbsne (fun b hb => (hprops b hb).1)
    rw [extractTextFromSrt, hstrip, if_neg hJne]
    rw [splitOnBlankL_joinWithL hbsne
      (fun b hb => ⟨(hprops b hb).2.2.2.1, (hprops b hb).2.2.2.2⟩)]
    rw [blocksAux_eq_map]
    dsimp only
    rw [List.filterMap_map]
    have hcongr : (keptAux 1 segs).filterMap
        ((fun block =>
          if 3 ≤ (splitLinesL (pyStripL block)).length then
            some (joinWithL ['\n'] ((splitLinesL (pyStripL block)).drop 2))
          else none) ∘ fun p => srtBlockChars p.1 p.2) =
        (keptAux 1 segs).map (fun p => pyStripL p.2.text.data) := by
      refine filterMap_congr_map ?_
      intro p hp
      have hne := keptAux_mem_ne p hp
      show (if 3 ≤ (splitLinesL (pyStripL (srtBlockChars p.1 p.2))).length then
        some (joinWithL ['\n'] ((splitLinesL (pyStripL (srtBlockChars p.1 p.2))).drop 2))
        else none) = some (pyStripL p.2.text.data)
      rw [srtBlockChars_strip hne, srtBlockChars_lines]
      have hlen : 1 ≤ (splitLinesL (pyStripL p.2.text.data)).length := by
        rcases hl : splitLinesL (pyStripL p.2.text.data) with _ | ⟨x, xs⟩
        · exact absurd hl (splitLinesL_ne_nil _)
        · simp
      rw [if_pos (by simp; omega)]
      rw [List.drop_succ_cons, List.drop_succ_cons, List.drop_zero]
      rw [joinWithL_splitLinesL]
    rw [hcongr, keptAux_texts]

/-- C4 witness: the amended round-trip theorem applied to the spec's
three-segment scenario list. -/
theorem srt_encode_decode_witness :
    (∀ seg ∈ ([⟨0, 3/2, "hello"⟩, ⟨3/2, 13/4, ""⟩, ⟨13/4, 4, "world"⟩] : List Segment),
      hasBlankL (pyStripL seg.text.data) = false) ∧
    extractTextFromSrt (writeSrtFromSegments
      [⟨0, 3/2, "hello"⟩, ⟨3/2, 13/4, ""⟩, ⟨13/4, 4, "world"⟩]) =
      ⟨joinWithL [' '] (keptTexts [⟨0, 3/2, "hello"⟩, ⟨3/2, 13/4, ""⟩, ⟨13/4, 4, "world"⟩])⟩ :=
  ⟨by decide, (srt_encode_decode _ (by decide)).1⟩

/-- The block indices visible in an encoded subtitle text: the first line of
every well-formed block (at least 3 lines), per the decoder's validity rule. -/
def srtBlockIndices (content : String) : List (List Char) :=
  (splitOnBlankL (pyStripL content.data)).filterMap fun block =>
    let lines := splitLinesL (pyStripL block)
    if 3 ≤ lines.length then some (lines.headD []) else none

set_option maxHeartbeats 2000000 in
/-- C2 (amended).  Subtitle encoding skips segments whose trimmed text is
empty, but the index counter advances over them as well (`enumerate` assigns
indices before the skip): the emitted blocks carry the 1-based positions of
the non-empty segments in the original sequence, which are contiguous only
when no segment is skipped. -/
theorem srt_indices_are_positions (segs : List Segment)
    (h : ∀ seg ∈ segs, hasBlankL (pyStripL seg.text.data) = false) :
    srtBlockIndices (writeSrtFromSegments segs) =
      ((List.enumFrom 1 segs).filter
        (fun p => !decide (pyStripL p.2.text.data = []))).map (fun p => natDigits p.1) := by
  rw [← keptAux_eq_enumFrom]
  rcases hk : keptAux 1 segs with _ | ⟨p0, krest⟩
  · have hb : blocksAux 1 segs = [] := by rw [blocksAux_eq_map, hk]; rfl
    have hw : writeSrtAux 1 segs = [] := by rw [writeSrtAux_eq_foldr, hb]; rfl
    rw [writeSrtFromSegments, hw]
    decide
  · have hbsne : blocksAux 1 segs ≠ [] := by
      rw [blocksAux_eq_map, hk]
      simp
    have hprops := blocksAux_props h
    have hJ : writeSrtAux 1 segs =
        joinWithL ['\n', '\n'] (blocksAux 1 segs) ++ ['\n', '\n'] := by
      rw [writeSrtAux_eq_foldr, foldr_blocks_eq_join hbsne]
    have hstrip : pyStripL (writeSrtFromSegments segs).data =
        joinWithL ['\n', '\n'] (blocksAux 1 segs) := by
      show pyStripL (writeSrtAux 1 segs) = _
      rw [hJ]
      exact pyStrip_join_append_nn hbsne
        (fun b hb => ⟨(hprops b hb).1, (hprops b hb).2.1, (hprops b hb).2.2.1⟩)
    rw [srtBlockIndices, hstrip]
    rw [splitOnBlankL_joinWithL hbsne
      (fun b hb => ⟨(hprops b hb).2.2.2.1, (hprops b hb).2.2.2.2⟩)]
    rw [blocksAux_eq_map]
    dsimp only
    rw [List.filterMap_map, ← hk]
    refine filterMap_congr_map ?_
    intro p hp
    have hne := keptAux_mem_ne p hp
    show (if 3 ≤ (splitLinesL (pyStripL (srtBlockChars p.1 p.2))).length then
      some ((splitLinesL (pyStripL (srtBlockChars p.1 p.2))).headD [])
      else none) = some (natDigits p.1)
    rw [srtBlockChars_strip hne, srtBlockChars_lines]
    have hlen : 1 ≤ (splitLinesL (pyStripL p.2.text.data)).length := by
      rcases hl : splitLinesL (pyStripL p.2.text.data) with _ | ⟨x, xs⟩
      · exact absurd hl (splitLinesL_ne_nil _)
      · simp
    rw [if_pos (by simp; omega)]
    rfl

/-- C2 witness: the amended index theorem applied to the spec's three-segment
scenario list. -/
theorem srt_indices_are_positions_witness :
    (∀ seg ∈ ([⟨0, 3/2, "hello"⟩, ⟨3/2, 13/4, ""⟩, ⟨13/4, 4, "world"⟩] : List Segment),
      hasBlankL (pyStripL seg.text.data) = false) ∧
    srtBlockIndices (writeSrtFromSegments
      [⟨0, 3/2, "hello"⟩, ⟨3/2, 13/4, ""⟩, ⟨13/4, 4, "world"⟩]) =
      ((List.enumFrom 1 [(⟨0, 3/2, "hello"⟩ : Segment), ⟨3/2, 13/4, ""⟩, ⟨13/4, 4, "world"⟩]).filter
        (fun p => !decide (pyStripL p.2.text.data = []))).map (fun p => natDigits p.1) :=
  ⟨by decide, srt_indices_are_positions _ (by decide)⟩

/-! ### Concrete timecode evaluations for the scenario segments -/

lemma secondsToSrtTime_zero : secondsToSrtTime 0 = "00:00:00,000" := by
  have h1 : srtHours 0 = 0 := by norm_num [srtHours, pyFloorDiv]
  have h2 : srtMinutes 0 = 0 := by norm_num [srtMinutes, pyFloorDiv, pyMod]
  have h3 : srtSecs 0 = 0 := by norm_num [srtSecs, pyInt, pyMod]
  have h4 : srtMillis 0 = 0 := by norm_num [srtMillis, pyInt]
  rw [secondsToSrtTime, h1, h2, h3, h4]
  decide

lemma secondsToSrtTime_three_halves : secondsToSrtTime (3 / 2) = "00:00:01,500" := by
  have h1 : srtHours (3 / 2) = 0 := by norm_num [srtHours, pyFloorDiv]
  have h2 : srtMinutes (3 / 2) = 0 := by norm_num [srtMinutes, pyFloorDiv, pyMod]
  have h3 : srtSecs (3 / 2) = 1 := by norm_num [srtSecs, pyInt, pyMod]
  have h4 : srtMillis (3 / 2) = 500 := by norm_num [srtMillis, pyInt]
  rw [secondsToSrtTime, h1, h2, h3, h4]
  decide

lemma secondsToSrtTime_thirteen_quarters : secondsToSrtTime (13 / 4) = "00:00:03,250" := by
  have h1 : srtHours (13 / 4) = 0 := by norm_num [srtHours, pyFloorDiv]
  have h2 : srtMinutes (13 / 4) = 0 := by norm_num [srtMinutes, pyFloorDiv, pyMod]
  have h3 : srtSecs (13 / 4) = 3 := by norm_num [srtSecs, pyInt, pyMod]
  have h4 : srtMillis (13 / 4) = 250 := by norm_num [srtMillis, pyInt]
  rw [secondsToSrtTime, h1, h2, h3, h4]
  decide

lemma secondsToSrtTime_four : secondsToSrtTime 4 = "00:00:04,000" := by
  have h1 : srtHours 4 = 0 := by norm_num [srtHours, pyFloorDiv]
  have h2 : srtMinutes 4 = 0 := by norm_num [srtMinutes, pyFloorDiv, pyMod]
  have h3 : srtSecs 4 = 4 := by norm_num [srtSecs, pyInt, pyMod]
  have h4 : srtMillis 4 = 0 := by norm_num [srtMillis, pyInt]
  rw [secondsToSrtTime, h1, h2, h3, h4]
  decide

lemma writeSrt_scenario :
    writeSrtFromSegments [⟨0, 3/2, "hello"⟩, ⟨3/2, 13/4, ""⟩, ⟨13/4, 4, "world"⟩] =
      "1\n00:00:00,000 --> 00:00:01,500\nhello\n\n3\n00:00:03,250 --> 00:00:04,000\nworld\n\n" := by
  have b1 : srtBlockChars 1 ⟨0, 3/2, "hello"⟩ =
      ("1\n00:00:00,000 --> 00:00:01,500\nhello").data := by
    rw [srtBlockChars]
    rw [show ((⟨0, 3/2, "hello"⟩ : Segment)).start = 0 from rfl]
    rw [show ((⟨0, 3/2, "hello"⟩ : Segment)).endTime = 3/2 from rfl]
    rw [secondsToSrtTime_zero, secondsToSrtTime_three_halves]
    decide
  have b3 : srtBlockChars 3 ⟨13/4, 4, "world"⟩ =
      ("3\n00:00:03,250 --> 00:00:04,000\nworld").data := by
    rw [srtBlockChars]
    rw [show ((⟨13/4, 4, "world"⟩ : Segment)).start = 13/4 from rfl]
    rw [show ((⟨13/4, 4, "world"⟩ : Segment)).endTime = 4 from rfl]
    rw [secondsToSrtTime_thirteen_quarters, secondsToSrtTime_four]
    decide
  show (⟨writeSrtAux 1 _⟩ : String) = _
  rw [writeSrtAux, if_neg (by decide)]
  rw [writeSrtAux, if_pos (by decide)]
  rw [writeSrtAux, if_neg (by decide)]
  rw [show writeSrtAux 4 [] = [] from rfl]
  rw [b1, b3]
  decide

/-- C2 counterexample.  The spec's scenario list with an empty middle segment
encodes to two blocks indexed `1` and `3`, not `1` and `2`: the writer's
`enumerate(segments, 1)` assigns an index to the skipped empty segment. -/
theorem srt_indices_scenario_not_contiguous :
    srtBlockIndices (writeSrtFromSegments
      [⟨0, 3/2, "hello"⟩, ⟨3/2, 13/4, ""⟩, ⟨13/4, 4, "world"⟩]) = [['1'], ['3']] ∧
    ([['1'], ['3']] : List (List Char)) ≠ [['1'], ['2']] := by
  rw [writeSrt_scenario]
  exact ⟨by decide, by decide⟩

lemma writeSrt_blankline :
    writeSrtFromSegments [⟨0, 3/2, "a\n\nb"⟩] =
      "1\n00:00:00,000 --> 00:00:01,500\na\n\nb\n\n" := by
  have b1 : srtBlockChars 1 ⟨0, 3/2, "a\n\nb"⟩ =
      ("1\n00:00:00,000 --> 00:00:01,500\na\n\nb").data := by
    rw [srtBlockChars]
    rw [show ((⟨0, 3/2, "a\n\nb"⟩ : Segment)).start = 0 from rfl]
    rw [show ((⟨0, 3/2, "a\n\nb"⟩ : Segment)).endTime = 3/2 from rfl]
    rw [secondsToSrtTime_zero, secondsToSrtTime_three_halves]
    decide
  show (⟨writeSrtAux 1 _⟩ : String) = _
  rw [writeSrtAux, if_neg (by decide)]
  rw [show writeSrtAux 2 [] = [] from rfl]
  rw [b1]
  decide

/-- C4 counterexample.  A segment whose trimmed text contains a blank line
breaks the decoder's block structure: the round trip of the single segment
with text `"a\n\nb"` yields `"a"`, not the claimed space-joined concatenation
of the trimmed non-empty texts (`"a\n\nb"` itself). -/
theorem srt_roundtrip_blankline_cex :
    extractTextFromSrt (writeSrtFromSegments [⟨0, 3/2, "a\n\nb"⟩]) = "a" ∧
    joinWithL [' '] (keptTexts [(⟨0, 3/2, "a\n\nb"⟩ : Segment)]) = ("a\n\nb").data ∧
    ("a" : String) ≠ "a\n\nb" := by
  rw [writeSrt_blankline]
  exact ⟨by decide, by decide, by decide⟩

/-! ### C8: timecode decomposition and lexicographic monotonicity -/

lemma pyInt_of_nonneg {q : ℚ} (h : 0 ≤ q) : pyInt q = ⌊q⌋ := by
  rw [pyInt, if_neg (not_lt.2 h)]

lemma pyMod_eq_fract (s : ℚ) {n : ℚ} (hn : 0 < n) :
    pyMod s n = n * Int.fract (s / n) := by
  rw [pyMod, Int.fract]
  field_simp

lemma pyMod_nonneg (s : ℚ) {n : ℚ} (hn : 0 < n) : 0 ≤ pyMod s n := by
  rw [pyMod_eq_fract s hn]
  exact mul_nonneg hn.le (Int.fract_nonneg _)

lemma pyMod_lt (s : ℚ) {n : ℚ} (hn : 0 < n) : pyMod s n < n := by
  rw [pyMod_eq_fract s hn]
  calc n * Int.fract (s / n) < n * 1 := by
        exact mul_lt_mul_of_pos_left (Int.fract_lt_one _) hn
    _ = n := mul_one n

lemma srtHours_eq (s : ℚ) : srtHours s = ⌊s / 3600⌋ := rfl

lemma srtMinutes_eq (s : ℚ) : srtMinutes s = ⌊s / 60⌋ - 60 * ⌊s / 3600⌋ := by
  rw [srtMinutes, pyFloorDiv]
  have harg : pyMod s 3600 / 60 = s / 60 - ((60 * ⌊s / 3600⌋ : ℤ) : ℚ) := by
    rw [pyMod]
    push_cast
    ring
  rw [harg, Int.floor_sub_int]

lemma srtSecs_eq (s : ℚ) : srtSecs s = ⌊s⌋ - 60 * ⌊s / 60⌋ := by
  rw [srtSecs, pyInt_of_nonneg (pyMod_nonneg s (by norm_num))]
  have harg : pyMod s 60 = s - ((60 * ⌊s / 60⌋ : ℤ) : ℚ) := by
    rw [pyMod]
    push_cast
    ring
  rw [harg, Int.floor_sub_int]

lemma srtMillis_eq {s : ℚ} (hs : 0 ≤ s) :
    srtMillis s = ⌊1000 * s⌋ - 1000 * ⌊s⌋ := by
  rw [srtMillis, pyInt_of_nonneg hs]
  have hfr : 0 ≤ (s - (⌊s⌋ : ℚ)) * 1000 :=
    mul_nonneg (by exact sub_nonneg.2 (Int.floor_le s)) (by norm_num)
  rw [pyInt_of_nonneg hfr]
  have harg : (s - (⌊s⌋ : ℚ)) * 1000 = 1000 * s - ((1000 * ⌊s⌋ : ℤ) : ℚ) := by
    push_cast
    ring
  rw [harg, Int.floor_sub_int]

lemma srtMinutes_range (s : ℚ) : 0 ≤ srtMinutes s ∧ srtMinutes s ≤ 59 := by
  rw [srtMinutes, pyFloorDiv]
  constructor
  · exact Int.floor_nonneg.2 (div_nonneg (pyMod_nonneg s (by norm_num)) (by norm_num))
  · have hlt : pyMod s 3600 / 60 < (60 : ℚ) := by
      rw [div_lt_iff (by norm_num : (0:ℚ) < 60)]
      calc pyMod s 3600 < 3600 := pyMod_lt s (by norm_num)
        _ = 60 * 60 := by norm_num
    have h60 : ⌊pyMod s 3600 / 60⌋ < (60 : ℤ) := Int.floor_lt.2 (by exact_mod_cast hlt)
    linarith

lemma srtSecs_range (s : ℚ) : 0 ≤ srtSecs s ∧ srtSecs s ≤ 59 := by
  rw [srtSecs, pyInt_of_nonneg (pyMod_nonneg s (by norm_num))]
  constructor
  · exact Int.floor_nonneg.2 (pyMod_nonneg s (by norm_num))
  · have h60 : ⌊pyMod s 60⌋ < (60 : ℤ) :=
      Int.floor_lt.2 (by exact_mod_cast pyMod_lt s (by norm_num : (0:ℚ) < 60))
    linarith

lemma srtMillis_range {s : ℚ} (hs : 0 ≤ s) : 0 ≤ srtMillis s ∧ srtMillis s ≤ 999 := by
  rw [srtMillis_eq hs]
  constructor
  · have h1 : (1000 * ⌊s⌋ : ℤ) ≤ ⌊1000 * s⌋ := by
      refine Int.le_floor.2 ?_
      push_cast
      exact mul_le_mul_of_nonneg_left (Int.floor_le s) (by norm_num)
    omega
  · have h2 : ⌊1000 * s⌋ < 1000 * ⌊s⌋ + 1000 := by
      refine Int.floor_lt.2 ?_
      push_cast
      have := Int.lt_floor_add_one s
      nlinarith
    omega

lemma srt_decomposition {s : ℚ} (hs : 0 ≤ s) :
    3600 * srtHours s + 60 * srtMinutes s + srtSecs s = ⌊s⌋ := by
  rw [srtHours_eq, srtMinutes_eq, srtSecs_eq]
  ring

lemma srtHours_nonneg {s : ℚ} (hs : 0 ≤ s) : 0 ≤ srtHours s := by
  rw [srtHours_eq]
  exact Int.floor_nonneg.2 (by positivity)

lemma srtHours_le_99 {s : ℚ} (hs : s < 360000) : srtHours s ≤ 99 := by
  rw [srtHours_eq]
  have : ⌊s / 3600⌋ < 100 := by
    refine Int.floor_lt.2 ?_
    rw [div_lt_iff (by norm_num : (0:ℚ) < 3600)]
    push_cast
    linarith
  omega

lemma srt_total_millis {s : ℚ} (hs : 0 ≤ s) :
    1000 * (3600 * srtHours s + 60 * srtMinutes s + srtSecs s) + srtMillis s = ⌊1000 * s⌋ := by
  rw [srt_decomposition hs, srtMillis_eq hs]
  ring

lemma srt_total_mono {a b : ℚ} (ha : 0 ≤ a) (hab : a ≤ b) :
    (⌊1000 * a⌋ : ℤ) ≤ ⌊1000 * b⌋ :=
  Int.floor_le_floor (by nlinarith)


lemma padNat2_eq : ∀ n < 100, padNat 2 n =
    [Char.ofNat (48 + n / 10), Char.ofNat (48 + n % 10)] := by decide

set_option maxRecDepth 40000 in
lemma padNat3_eq : ∀ n < 1000, padNat 3 n =
    [Char.ofNat (48 + n / 100), Char.ofNat (48 + n / 10 % 10), Char.ofNat (48 + n % 10)] := by
  decide

lemma digit_lt_digit : ∀ i < 10, ∀ j < 10,
    (Char.ofNat (48 + i) < Char.ofNat (48 + j) ↔ i < j) := by decide

lemma lex_lt_pad2 {x y : Nat} (hx : x < 100) (hy : y < 100) (hxy : x < y)
    (r1 r2 : List Char) :
    List.Lex (· < ·) (padNat 2 x ++ r1) (padNat 2 y ++ r2) := by
  rw [padNat2_eq x hx, padNat2_eq y hy]
  by_cases h1 : x / 10 < y / 10
  · exact List.Lex.rel ((digit_lt_digit _ (by omega) _ (by omega)).2 h1)
  · have he : x / 10 = y / 10 := by omega
    have h2 : x % 10 < y % 10 := by omega
    rw [he]
    exact List.Lex.cons (List.Lex.rel ((digit_lt_digit _ (by omega) _ (by omega)).2 h2))

lemma lex_lt_pad3 {x y : Nat} (hx : x < 1000) (hy : y < 1000) (hxy : x < y) :
    List.Lex (· < ·) (padNat 3 x) (padNat 3 y) := by
  rw [padNat3_eq x hx, padNat3_eq y hy]
  by_cases h1 : x / 100 < y / 100
  · exact List.Lex.rel ((digit_lt_digit _ (by omega) _ (by omega)).2 h1)
  · have he1 : x / 100 = y / 100 := by omega
    rw [he1]
    by_cases h2 : x / 10 % 10 < y / 10 % 10
    · exact List.Lex.cons (List.Lex.rel ((digit_lt_digit _ (by omega) _ (by omega)).2 h2))
    · have he2 : x / 10 % 10 = y / 10 % 10 := by omega
      have h3 : x % 10 < y % 10 := by omega
      rw [he2]
      exact List.Lex.cons (List.Lex.cons
        (List.Lex.rel ((digit_lt_digit _ (by omega) _ (by omega)).2 h3)))

/-- The rendered `HH:MM:SS,mmm` character list for non-negative components. -/
def renderTimeNat (h m s ms : Nat) : List Char :=
  padNat 2 h ++ ':' :: padNat 2 m ++ ':' :: padNat 2 s ++ ',' :: padNat 3 ms

lemma renderTimeNat_le {h1 m1 s1 ms1 h2 m2 s2 ms2 : Nat}
    (hh1 : h1 < 100) (hh2 : h2 < 100) (hm1 : m1 < 100) (hm2 : m2 < 100)
    (hs1 : s1 < 100) (hs2 : s2 < 100) (hms1 : ms1 < 1000) (hms2 : ms2 < 1000)
    (hlex : h1 < h2 ∨ (h1 = h2 ∧ (m1 < m2 ∨ (m1 = m2 ∧ (s1 < s2 ∨
      (s1 = s2 ∧ (ms1 < ms2 ∨ ms1 = ms2))))))) :
    renderTimeNat h1 m1 s1 ms1 = renderTimeNat h2 m2 s2 ms2 ∨
      List.Lex (· < ·) (renderTimeNat h1 m1 s1 ms1) (renderTimeNat h2 m2 s2 ms2) := by
  simp only [renderTimeNat, List.append_assoc, List.cons_append]
  rcases hlex with hlt | ⟨rfl, hlex⟩
  · exact Or.inr (lex_lt_pad2 hh1 hh2 hlt _ _)
  rcases hlex with hlt | ⟨rfl, hlex⟩
  · refine Or.inr (List.Lex.append_left _ ?_ (padNat 2 h1))
    exact List.Lex.cons (lex_lt_pad2 hm1 hm2 hlt _ _)
  rcases hlex with hlt | ⟨rfl, hlex⟩
  · refine Or.inr (List.Lex.append_left _ ?_ (padNat 2 h1))
    refine List.Lex.cons (List.Lex.append_left _ ?_ (padNat 2 m1))
    exact List.Lex.cons (lex_lt_pad2 hs1 hs2 hlt _ _)
  rcases hlex with hlt | rfl
  · refine Or.inr (List.Lex.append_left _ ?_ (padNat 2 h1))
    refine List.Lex.cons (List.Lex.append_left _ ?_ (padNat 2 m1))
    refine List.Lex.cons (List.Lex.append_left _ ?_ (padNat 2 s1))
    exact List.Lex.cons (lex_lt_pad3 hms1 hms2 hlt)
  · exact Or.inl rfl


lemma padInt_of_nonneg {w : Nat} {z : ℤ} (h : 0 ≤ z) :
    padInt w z = padNat w z.toNat := by
  rw [padInt, if_neg (not_lt.2 h)]

lemma secondsToSrtTime_eq_render {s : ℚ} (hs : 0 ≤ s) :
    (secondsToSrtTime s).data =
      renderTimeNat (srtHours s).toNat (srtMinutes s).toNat
        (srtSecs s).toNat (srtMillis s).toNat := by
  show padInt 2 (srtHours s) ++ ':' :: padInt 2 (srtMinutes s) ++
      ':' :: padInt 2 (srtSecs s) ++ ',' :: padInt 3 (srtMillis s) = _
  rw [renderTimeNat,
    padInt_of_nonneg (srtHours_nonneg hs),
    padInt_of_nonneg (srtMinutes_range s).1,
    padInt_of_nonneg (srtSecs_range s).1,
    padInt_of_nonneg (srtMillis_range hs).1]

theorem srtTime_floor_monotone :
    (∀ s : ℚ, 0 ≤ s →
      3600 * srtHours s + 60 * srtMinutes s + srtSecs s = ⌊s⌋ ∧
      srtMillis s = ⌊1000 * s⌋ - 1000 * ⌊s⌋ ∧
      0 ≤ srtMillis s ∧ srtMillis s ≤ 999) ∧
    (∀ a b : ℚ, 0 ≤ a → a ≤ b → b < 360000 →
      secondsToSrtTime a ≤ secondsToSrtTime b) := by
  constructor
  · intro s hs
    exact ⟨srt_decomposition hs, srtMillis_eq hs,
      (srtMillis_range hs).1, (srtMillis_range hs).2⟩
  · intro a b ha hab hb
    have ha' : a < 360000 := lt_of_le_of_lt hab hb
    have hb0 : 0 ≤ b := le_trans ha hab
    have hHa := srtHours_nonneg ha
    have hHb := srtHours_nonneg hb0
    have hHa99 := srtHours_le_99 ha'
    have hHb99 := srtHours_le_99 hb
    have hMa := srtMinutes_range a
    have hMb := srtMinutes_range b
    have hSa := srtSecs_range a
    have hSb := srtSecs_range b
    have hMSa := srtMillis_range ha
    have hMSb := srtMillis_range hb0
    have hta := srt_total_millis ha
    have htb := srt_total_millis hb0
    have hmono := srt_total_mono ha hab
    rw [String.le_iff_toList_le]
    show (secondsToSrtTime a).data ≤ (secondsToSrtTime b).data
    rw [secondsToSrtTime_eq_render ha, secondsToSrtTime_eq_render hb0]
    have hkey : (srtHours a).toNat < (srtHours b).toNat ∨
        ((srtHours a).toNat = (srtHours b).toNat ∧
          ((srtMinutes a).toNat < (srtMinutes b).toNat ∨
            ((srtMinutes a).toNat = (srtMinutes b).toNat ∧
              ((srtSecs a).toNat < (srtSecs b).toNat ∨
                ((srtSecs a).toNat = (srtSecs b).toNat ∧
                  ((srtMillis a).toNat < (srtMillis b).toNat ∨
                    (srtMillis a).toNat = (srtMillis b).toNat)))))) := by
      omega
    have := renderTimeNat_le (by omega) (by omega) (by omega) (by omega)
      (by omega) (by omega) (by omega) (by omega) hkey
    rcases this with heq | hlex
    · exact le_of_eq heq
    · exact le_of_lt hlex


lemma secondsToSrtTime_99h : secondsToSrtTime 356400 = "99:00:00,000" := by
  have h1 : srtHours 356400 = 99 := by norm_num [srtHours, pyFloorDiv]
  have h2 : srtMinutes 356400 = 0 := by norm_num [srtMinutes, pyFloorDiv, pyMod]
  have h3 : srtSecs 356400 = 0 := by norm_num [srtSecs, pyInt, pyMod]
  have h4 : srtMillis 356400 = 0 := by norm_num [srtMillis, pyInt]
  rw [secondsToSrtTime, h1, h2, h3, h4]
  decide

lemma secondsToSrtTime_100h : secondsToSrtTime 360000 = "100:00:00,000" := by
  have h1 : srtHours 360000 = 100 := by norm_num [srtHours, pyFloorDiv]
  have h2 : srtMinutes 360000 = 0 := by norm_num [srtMinutes, pyFloorDiv, pyMod]
  have h3 : srtSecs 360000 = 0 := by norm_num [srtSecs, pyInt, pyMod]
  have h4 : srtMillis 360000 = 0 := by norm_num [srtMillis, pyInt]
  rw [secondsToSrtTime, h1, h2, h3, h4]
  decide

theorem srtTime_lex_cex :
    (356400 : ℚ) ≤ 360000 ∧
    ¬ (secondsToSrtTime 356400 ≤ secondsToSrtTime 360000) := by
  rw [secondsToSrtTime_99h, secondsToSrtTime_100h]
  refine ⟨by norm_num, ?_⟩
  refine not_le.2 ?_
  rw [String.lt_iff_toList_lt]
  exact List.Lex.rel (by decide)

theorem srtTime_floor_monotone_witness :
    (3600 * srtHours 0 + 60 * srtMinutes 0 + srtSecs 0 = ⌊(0 : ℚ)⌋ ∧
      srtMillis 0 = ⌊1000 * (0 : ℚ)⌋ - 1000 * ⌊(0 : ℚ)⌋ ∧
      0 ≤ srtMillis 0 ∧ srtMillis 0 ≤ 999) ∧
    secondsToSrtTime 0 ≤ secondsToSrtTime 0 :=
  ⟨srtTime_floor_monotone.1 0 le_rfl,
   srtTime_floor_monotone.2 0 0 le_rfl le_rfl (by norm_num)⟩

/-! ### Paragraph buffer facts shared by C5, C6 and C10 -/

lemma cpAux_mem_ne_nil :
    ∀ (l : List String) (buf : List String), ∀ par ∈ cpAux buf l, par ≠ [] := by
  intro l
  induction l with
  | nil =>
    intro buf par hpar
    rw [cpAux] at hpar
    by_cases hb : buf.isEmpty
    · rw [if_pos hb] at hpar
      cases hpar
    · rw [if_neg hb] at hpar
      rcases List.mem_singleton.1 hpar with rfl
      simpa using hb
  | cons s rest ih =>
    intro buf par hpar
    rw [cpAux] at hpar
    by_cases hc : (4 ≤ (buf ++ [s]).length &&
        (rest.isEmpty || isTopicTransition s (rest.headD ⟨[]⟩))) = true
    · rw [if_pos hc] at hpar
      rcases List.mem_cons.1 hpar with rfl | hpar
      · simp
      · exact ih [] par hpar
    · rw [if_neg hc] at hpar
      exact ih (buf ++ [s]) par hpar

lemma cpAux_mem_subset :
    ∀ (l : List String) (buf : List String), ∀ par ∈ cpAux buf l,
      ∀ x ∈ par, x ∈ buf ∨ x ∈ l := by
  intro l
  induction l with
  | nil =>
    intro buf par hpar x hx
    rw [cpAux] at hpar
    by_cases hb : buf.isEmpty
    · rw [if_pos hb] at hpar
      cases hpar
    · rw [if_neg hb] at hpar
      rcases List.mem_singleton.1 hpar with rfl
      exact Or.inl hx
  | cons s rest ih =>
    intro buf par hpar x hx
    rw [cpAux] at hpar
    by_cases hc : (4 ≤ (buf ++ [s]).length &&
        (rest.isEmpty || isTopicTransition s (rest.headD ⟨[]⟩))) = true
    · rw [if_pos hc] at hpar
      rcases List.mem_cons.1 hpar with rfl | hpar
      · rcases List.mem_append.1 hx with h | h
        · exact Or.inl h
        · exact Or.inr (by simp [List.mem_singleton.1 h])
      · rcases ih [] par hpar x hx with h | h
        · cases h
        · exact Or.inr (List.mem_cons_of_mem _ h)
    · rw [if_neg hc] at hpar
      rcases ih (buf ++ [s]) par hpar x hx with h | h
      · rcases List.mem_append.1 h with h | h
        · exact Or.inl h
        · exact Or.inr (by simp [List.mem_singleton.1 h])
      · exact Or.inr (List.mem_cons_of_mem _ h)

/-! ### C5: invariants of the surviving sentences -/

lemma endsWithTerminalL_append_dot (l : List Char) :
    endsWithTerminalL (l ++ ['.']) = true := by
  rw [endsWithTerminalL, List.getLast?_append_of_ne_nil _ (by simp)]
  rfl

lemma endsWithTerminal_ne_empty {s : String} (h : endsWithTerminal s = true) :
    s ≠ ⟨[]⟩ := by
  intro he
  rw [endsWithTerminal, he] at h
  cases h

lemma survivingSentences_mem {sentTok wordTok : String → List String}
    {stopWords : List String} {text : String} {p : String}
    (hp : p ∈ survivingSentences sentTok wordTok stopWords text) :
    ∃ s ∈ sentTok (removeFillers (cleanText text)),
      3 ≤ (pySplitWs s).length ∧
      2 ≤ (contentWordsOf wordTok stopWords s).length ∧
      p = (if endsWithTerminal (pyStrip s) then pyStrip s
        else ⟨(pyStrip s).data ++ ['.']⟩) ∧ p ≠ ⟨[]⟩ := by
  rw [survivingSentences] at hp
  obtain ⟨s, hs, hf⟩ := List.mem_filterMap.1 hp
  by_cases hlen : (pySplitWs s).length < 3
  · rw [if_pos hlen] at hf
    cases hf
  · rw [if_neg hlen] at hf
    rcases hps : processSentence wordTok stopWords s with _ | q
    · rw [hps] at hf
      cases hf
    · rw [hps] at hf
      change (if q = ⟨[]⟩ then none else some q) = some p at hf
      by_cases hq : q = ⟨[]⟩
      · rw [if_pos hq] at hf
        cases hf
      · rw [if_neg hq] at hf
        have hpq : p = q := by cases hf; rfl
        subst hpq
        rw [processSentence] at hps
        by_cases hcc : (contentWordsOf wordTok stopWords s).length < 2
        · rw [if_pos hcc] at hps
          cases hps
        · rw [if_neg hcc] at hps
          refine ⟨s, hs, by omega, by omega, ?_, hq⟩
          cases hps
          rfl

/-- C5.  Under the standing facts about the external word tokenizer (stripping
a sentence and appending a final period do not change its content-word
count — true of NLTK's `word_tokenize`, which emits the appended period as a
separate punctuation token), every surviving sentence ends in `.`, `!` or
`?`, is non-empty, and has at least 2 content words; and no emitted
paragraph is empty. -/
theorem surviving_sentence_invariant (sentTok wordTok : String → List String)
    (stopWords : List String) (text : String)
    (htok : ∀ s ∈ sentTok (removeFillers (cleanText text)),
      (contentWordsOf wordTok stopWords (pyStrip s)).length =
        (contentWordsOf wordTok stopWords s).length ∧
      (endsWithTerminal (pyStrip s) = false →
        (contentWordsOf wordTok stopWords ⟨(pyStrip s).data ++ ['.']⟩).length =
          (contentWordsOf wordTok stopWords (pyStrip s)).length)) :
    (∀ p ∈ survivingSentences sentTok wordTok stopWords text,
      endsWithTerminal p = true ∧ p ≠ ⟨[]⟩ ∧
      2 ≤ (contentWordsOf wordTok stopWords p).length) ∧
    (∀ par ∈ paragraphsList (survivingSentences sentTok wordTok stopWords text),
      joinWithL [' '] (par.map String.data) ≠ []) := by
  have hmain : ∀ p ∈ survivingSentences sentTok wordTok stopWords text,
      endsWithTerminal p = true ∧ p ≠ ⟨[]⟩ ∧
      2 ≤ (contentWordsOf wordTok stopWords p).length := by
    intro p hp
    obtain ⟨s, hs, _, hcc, hpeq, hpne⟩ := survivingSentences_mem hp
    obtain ⟨htok1, htok2⟩ := htok s hs
    by_cases hterm : endsWithTerminal (pyStrip s) = true
    · rw [if_pos hterm] at hpeq
      subst hpeq
      exact ⟨hterm, hpne, by omega⟩
    · rw [Bool.not_eq_true] at hterm
      rw [if_neg (by simp [hterm])] at hpeq
      subst hpeq
      refine ⟨?_, hpne, ?_⟩
      · exact endsWithTerminalL_append_dot _
      · rw [htok2 hterm, htok1]
        omega
  refine ⟨hmain, ?_⟩
  intro par hpar
  have hne : par ≠ [] := cpAux_mem_ne_nil _ _ par hpar
  have hsub := cpAux_mem_subset _ _ par hpar
  cases par with
  | nil => exact absurd rfl hne
  | cons x rest =>
    have hx : x.data ≠ [] := by
      have hmem : x ∈ survivingSentences sentTok wordTok stopWords text := by
        rcases hsub x (by simp) with h | h
        · cases h
        · exact h
      intro hd
      exact (hmain x hmem).2.1 (by cases x; cases hd; rfl)
    cases rest with
    | nil => exact hx
    | cons y t =>
      rw [List.map_cons, List.map_cons, joinWithL_cons_cons]
      intro hcontra
      exact hx (List.append_eq_nil.1 (List.append_eq_nil.1 hcontra).1).1

/-- C5 witness: the invariant theorem applied to concrete tokenizers and a
concrete input text. -/
theorem surviving_sentence_invariant_witness :
    (∀ s ∈ demoSentTok (removeFillers (cleanText
        ("Alpha beta gamma. Delta epsilon zeta."))),
      (contentWordsOf demoWordTok demoStopWords (pyStrip s)).length =
        (contentWordsOf demoWordTok demoStopWords s).length ∧
      (endsWithTerminal (pyStrip s) = false →
        (contentWordsOf demoWordTok demoStopWords ⟨(pyStrip s).data ++ ['.']⟩).length =
          (contentWordsOf demoWordTok demoStopWords (pyStrip s)).length)) ∧
    ((∀ p ∈ survivingSentences demoSentTok demoWordTok demoStopWords
        ("Alpha beta gamma. Delta epsilon zeta."),
      endsWithTerminal p = true ∧ p ≠ ⟨[]⟩ ∧
      2 ≤ (contentWordsOf demoWordTok demoStopWords p).length) ∧
    (∀ par ∈ paragraphsList (survivingSentences demoSentTok demoWordTok demoStopWords
        ("Alpha beta gamma. Delta epsilon zeta.")),
      joinWithL [' '] (par.map String.data) ≠ [])) :=
  ⟨by decide, surviving_sentence_invariant demoSentTok demoWordTok demoStopWords
    ("Alpha beta gamma. Delta epsilon zeta.") (by decide)⟩

/-! ### C6 and C10: paragraph assembly characterization -/

lemma isTopicTransition_irrel (a b x : String) :
    isTopicTransition a x = isTopicTransition b x := rfl

lemma cpAux_join : ∀ (l : List String) (buf : List String),
    (cpAux buf l).join = buf ++ l := by
  intro l
  induction l with
  | nil =>
    intro buf
    rw [cpAux]
    by_cases hb : buf.isEmpty
    · rw [if_pos hb]
      simp [List.isEmpty_iff.1 hb]
    · rw [if_neg hb]
      simp
  | cons s rest ih =>
    intro buf
    rw [cpAux]
    by_cases hc : (4 ≤ (buf ++ [s]).length &&
        (rest.isEmpty || isTopicTransition s (rest.headD ⟨[]⟩))) = true
    · rw [if_pos hc]
      have hstep : ((buf ++ [s]) :: cpAux [] rest).join =
          (buf ++ [s]) ++ (cpAux [] rest).join := by simp
      rw [hstep, ih []]
      simp
    · rw [if_neg hc]
      rw [ih (buf ++ [s])]
      simp

lemma getD_zero_eq_headD {α : Type _} (l : List α) (d : α) :
    l.getD 0 d = l.headD d := by
  cases l <;> rfl

lemma cpAux_ne_nil_of_ne {l : List String} (h : l ≠ []) : cpAux [] l ≠ [] := by
  intro hP
  have := cpAux_join l []
  rw [hP] at this
  exact h (by simpa using this.symm)

lemma cpAux_first_head {l : List String} (h : l ≠ []) :
    ((cpAux [] l).headD []).headD ⟨[]⟩ = l.headD ⟨[]⟩ := by
  rcases hP : cpAux [] l with _ | ⟨c, P'⟩
  · exact absurd hP (cpAux_ne_nil_of_ne h)
  · have hc : c ≠ [] := cpAux_mem_ne_nil l [] c (by rw [hP]; simp)
    have hj := cpAux_join l []
    rw [hP] at hj
    have hj2 : c ++ P'.join = l := by simpa using hj
    rcases hcc : c with _ | ⟨x, t⟩
    · exact absurd hcc hc
    · rw [hcc] at hj2
      cases l with
      | nil => exact absurd rfl h
      | cons y ys =>
        have hxy : x = y := by
          have := congrArg (fun z => z.headD (⟨[]⟩ : String)) hj2
          simpa using this
        simp [hxy]

lemma cpAux_sound : ∀ (l : List String) (buf : List String) (i : Nat),
    i + 1 < (cpAux buf l).length →
    4 ≤ ((cpAux buf l).getD i []).length ∧
    isTopicTransition (((cpAux buf l).getD i []).getLastD ⟨[]⟩)
      (((cpAux buf l).getD (i + 1) []).headD ⟨[]⟩) = true := by
  intro l
  induction l with
  | nil =>
    intro buf i hi
    rw [cpAux] at hi ⊢
    by_cases hb : buf.isEmpty
    · rw [if_pos hb] at hi
      simp at hi
    · rw [if_neg hb] at hi
      simp at hi
  | cons s rest ih =>
    intro buf i hi
    rw [cpAux] at hi ⊢
    by_cases hc : (4 ≤ (buf ++ [s]).length &&
        (rest.isEmpty || isTopicTransition s (rest.headD ⟨[]⟩))) = true
    · rw [if_pos hc] at hi ⊢
      rw [Bool.and_eq_true] at hc
      cases i with
      | zero =>
        have hLne : cpAux [] rest ≠ [] := by
          intro hL
          rw [hL] at hi
          simp at hi
        have hrest : rest ≠ [] := by
          intro hr
          subst hr
          exact hLne rfl
        have htr : isTopicTransition s (rest.headD ⟨[]⟩) = true := by
          have h2 := hc.2
          rw [Bool.or_eq_true] at h2
          rcases h2 with h | h
          · exact absurd (List.isEmpty_iff.1 h) hrest
          · exact h
        constructor
        · rw [List.getD_cons_zero]
          exact of_decide_eq_true hc.1
        · rw [List.getD_cons_zero, List.getD_cons_succ, getD_zero_eq_headD]
          rw [cpAux_first_head hrest]
          rw [isTopicTransition_irrel _ s]
          exact htr
      | succ j =>
        rw [List.getD_cons_succ, List.getD_cons_succ]
        refine ih [] j ?_
        simpa using hi
    · rw [if_neg hc] at hi ⊢
      exact ih (buf ++ [s]) i hi


lemma cpAux_min : ∀ (l buf : List String)
    (hInt : ∀ k, 4 ≤ k → k < buf.length →
      isTopicTransition (buf.getD (k - 1) ⟨[]⟩) (buf.getD k ⟨[]⟩) = false)
    (hPend : l ≠ [] → 4 ≤ buf.length →
      isTopicTransition (buf.getLastD ⟨[]⟩) (l.headD ⟨[]⟩) = false),
    ∀ par ∈ cpAux buf l, ∀ k, 4 ≤ k → k < par.length →
      isTopicTransition (par.getD (k - 1) ⟨[]⟩) (par.getD k ⟨[]⟩) = false := by
  intro l
  induction l with
  | nil =>
    intro buf hInt hPend par hpar k hk4 hklen
    rw [cpAux] at hpar
    by_cases hb : buf.isEmpty
    · rw [if_pos hb] at hpar
      cases hpar
    · rw [if_neg hb] at hpar
      rcases List.mem_singleton.1 hpar with rfl
      exact hInt k hk4 hklen
  | cons s rest ih =>
    intro buf hInt hPend par hpar k hk4 hklen
    have hextend : ∀ k', 4 ≤ k' → k' < (buf ++ [s]).length →
        isTopicTransition ((buf ++ [s]).getD (k' - 1) ⟨[]⟩)
          ((buf ++ [s]).getD k' ⟨[]⟩) = false := by
      intro k' hk4' hklen'
      rw [List.length_append, List.length_singleton] at hklen'
      by_cases hkb : k' < buf.length
      · rw [List.getD_append _ _ _ _ (by omega), List.getD_append _ _ _ _ hkb]
        exact hInt k' hk4' hkb
      · have hkeq : k' = buf.length := by omega
        have hgd : (buf ++ [s]).getD k' ⟨[]⟩ = s := by
          rw [List.getD_append_right _ _ _ _ (by omega)]
          rw [hkeq]
          simp
        rw [hgd, isTopicTransition_irrel _ (buf.getLastD ⟨[]⟩)]
        have := hPend (by simp) (by omega)
        simpa using this
    rw [cpAux] at hpar
    by_cases hc : (4 ≤ (buf ++ [s]).length &&
        (rest.isEmpty || isTopicTransition s (rest.headD ⟨[]⟩))) = true
    · rw [if_pos hc] at hpar
      rcases List.mem_cons.1 hpar with rfl | hpar
      · exact hextend k hk4 hklen
      · exact ih [] (by intro k2 h4 h0; simp at h0)
          (by intro _ h4; simp at h4) par hpar k hk4 hklen
    · rw [if_neg hc] at hpar
      refine ih (buf ++ [s]) hextend ?_ par hpar k hk4 hklen
      intro hrest hlen4
      have hcf : (decide (4 ≤ (buf ++ [s]).length) &&
          (rest.isEmpty || isTopicTransition s (rest.headD ⟨[]⟩))) = false :=
        eq_false_of_ne_true hc
      have htr : isTopicTransition s (rest.headD ⟨[]⟩) = false := by
        rcases Bool.and_eq_false_iff.1 hcf with h | h
        · exact absurd hlen4 (by simpa using h)
        · exact (Bool.or_eq_false_iff.1 h).2
      have hlast : (buf ++ [s]).getLastD ⟨[]⟩ = s := by simp
      rw [hlast, isTopicTransition_irrel _ s]
      simpa using htr

lemma cpAux_dropLast : ∀ (l buf : List String),
    ∀ par ∈ (cpAux buf l).dropLast, 4 ≤ par.length := by
  intro l
  induction l with
  | nil =>
    intro buf par hpar
    rw [cpAux] at hpar
    by_cases hb : buf.isEmpty
    · rw [if_pos hb] at hpar
      cases hpar
    · rw [if_neg hb] at hpar
      simp at hpar
  | cons s rest ih =>
    intro buf par hpar
    rw [cpAux] at hpar
    by_cases hc : (4 ≤ (buf ++ [s]).length &&
        (rest.isEmpty || isTopicTransition s (rest.headD ⟨[]⟩))) = true
    · rw [if_pos hc] at hpar
      rw [Bool.and_eq_true] at hc
      rcases hL : cpAux [] rest with _ | ⟨c, L'⟩
      · rw [hL] at hpar
        simp at hpar
      · rw [hL] at hpar
        have : (buf ++ [s]) :: c :: L' = [buf ++ [s]] ++ c :: L' := rfl
        rw [this, List.dropLast_append_of_ne_nil _ (by simp)] at hpar
        rcases List.mem_append.1 hpar with h | h
        · rcases List.mem_singleton.1 h with rfl
          exact of_decide_eq_true hc.1
        · refine ih [] par ?_
          rw [hL]
          exact h
    · rw [if_neg hc] at hpar
      exact ih (buf ++ [s]) par hpar


/-- C6.  Characterization of paragraph assembly: the empty sentence list
yields the empty string; the paragraphs partition the sentences in order;
no paragraph is empty; every non-final paragraph was closed exactly by the
rule (it holds at least 4 sentences and the first sentence of the following
paragraph is a topic transition); and no paragraph could have been closed
earlier (no interior position of a paragraph with at least 4 accumulated
sentences is followed, inside the paragraph, by a topic transition). -/
theorem createParagraphs_characterization (sentences : List String) :
    createParagraphs [] = ⟨[]⟩ ∧
    (paragraphsList sentences).join = sentences ∧
    (∀ par ∈ paragraphsList sentences, par ≠ []) ∧
    (∀ i, i + 1 < (paragraphsList sentences).length →
      4 ≤ ((paragraphsList sentences).getD i []).length ∧
      isTopicTransition (((paragraphsList sentences).getD i []).getLastD ⟨[]⟩)
        (((paragraphsList sentences).getD (i + 1) []).headD ⟨[]⟩) = true) ∧
    (∀ par ∈ paragraphsList sentences, ∀ k, 4 ≤ k → k < par.length →
      isTopicTransition (par.getD (k - 1) ⟨[]⟩) (par.getD k ⟨[]⟩) = false) := by
  refine ⟨rfl, ?_, ?_, ?_, ?_⟩
  · simpa using cpAux_join sentences []
  · exact cpAux_mem_ne_nil sentences []
  · exact fun i hi => cpAux_sound sentences [] i hi
  · exact cpAux_min sentences [] (by intro k h4 h0; simp at h0)
      (by intro _ h4; simp at h4)

/-- A concrete six-sentence list whose paragraph closes after five sentences
(the sixth carries a transition marker). -/
def demoSentences6 : List String :=
  ["One two alpha.", "Two three beta.", "Three four gamma.",
   "Four five delta.", "Five six epsilon.", "Now the end."]

/-- C6 witness: the characterization applied to the concrete six-sentence
list. -/
theorem createParagraphs_characterization_witness :
    (paragraphsList demoSentences6).join = demoSentences6 ∧
    (4 ≤ ((paragraphsList demoSentences6).getD 0 []).length ∧
      isTopicTransition (((paragraphsList demoSentences6).getD 0 []).getLastD ⟨[]⟩)
        (((paragraphsList demoSentences6).getD 1 []).headD ⟨[]⟩) = true) ∧
    isTopicTransition
      (((paragraphsList demoSentences6).getD 0 []).getD 3 ⟨[]⟩)
      (((paragraphsList demoSentences6).getD 0 []).getD 4 ⟨[]⟩) = false :=
  ⟨(createParagraphs_characterization demoSentences6).2.1,
   (createParagraphs_characterization demoSentences6).2.2.2.1 0 (by decide),
   (createParagraphs_characterization demoSentences6).2.2.2.2
     ((paragraphsList demoSentences6).getD 0 []) (by decide) 4 (by decide) (by decide)⟩

/-- C10.  Every paragraph other than the last holds at least 4 sentences:
a paragraph is only closed when its buffer has reached 4, and only the
trailing leftover buffer — always the final paragraph — can be shorter. -/
theorem paragraphs_before_last_ge_four (sentences : List String) :
    ∀ par ∈ (paragraphsList sentences).dropLast, 4 ≤ par.length :=
  cpAux_dropLast sentences []

/-- C10 witness: the first paragraph of the concrete six-sentence list is a
non-final paragraph with at least 4 sentences. -/
theorem paragraphs_before_last_ge_four_witness :
    ((paragraphsList demoSentences6).getD 0 []) ∈
      (paragraphsList demoSentences6).dropLast ∧
    4 ≤ ((paragraphsList demoSentences6).getD 0 []).length :=
  ⟨by decide, paragraphs_before_last_ge_four demoSentences6
    ((paragraphsList demoSentences6).getD 0 []) (by decide)⟩

/-! ### C7: the template fallback, and C9: conditional idempotence -/

/-- The spec-side escaping: each of the seven reserved characters is
individually escaped (claim C7's wording), as a single character-wise pass. -/
def specEscapeChar (c : Char) : List Char :=
  if c = '&' || c = '%' || c = '$' || c = '#' || c = '_' || c = lbrace || c = rbrace then
    ['\\', c]
  else [c]

/-- The spec-side escaping of a whole block. -/
def specEscapeL (l : List Char) : List Char :=
  (l.map specEscapeChar).join

lemma pyReplaceCharL_append (t : Char) (repl A B : List Char) :
    pyReplaceCharL t repl (A ++ B) =
      pyReplaceCharL t repl A ++ pyReplaceCharL t repl B := by
  induction A with
  | nil => rfl
  | cons c A' ih =>
    show pyReplaceCharL t repl (c :: (A' ++ B)) = pyReplaceCharL t repl (c :: A') ++ _
    by_cases h : c = t
    · simp only [pyReplaceCharL, if_pos h, ih, List.append_assoc]
    · simp only [pyReplaceCharL, if_neg h, ih, List.cons_append]

lemma escapeLatexL_append (A B : List Char) :
    escapeLatexL (A ++ B) = escapeLatexL A ++ escapeLatexL B := by
  simp [escapeLatexL, pyReplaceCharL_append]

lemma escapeLatexL_single (c : Char) : escapeLatexL [c] = specEscapeChar c := by
  by_cases h1 : c = '&'
  · subst h1; decide
  by_cases h2 : c = '%'
  · subst h2; decide
  by_cases h3 : c = '$'
  · subst h3; decide
  by_cases h4 : c = '#'
  · subst h4; decide
  by_cases h5 : c = '_'
  · subst h5; decide
  by_cases h6 : c = lbrace
  · subst h6; decide
  by_cases h7 : c = rbrace
  · subst h7; decide
  · rw [specEscapeChar, if_neg (by simp [h1, h2, h3, h4, h5, h6, h7])]
    rw [escapeLatexL]
    simp only [pyReplaceCharL, if_neg h1, if_neg h2, if_neg h3, if_neg h4,
      if_neg h5, if_neg h6, if_neg h7]

lemma escapeLatexL_eq_spec (l : List Char) : escapeLatexL l = specEscapeL l := by
  induction l with
  | nil => rfl
  | cons c rest ih =>
    have : c :: rest = [c] ++ rest := rfl
    rw [this, escapeLatexL_append, ih, escapeLatexL_single]
    rfl

/-- The spec-side body: blocks numbered from `i`, each emitted as a
`Topic N` section whose content is character-wise escaped and then
bold-emphasized. -/
def specTemplateBody (i : Nat) : List String → List Char
  | [] => []
  | p :: ps =>
    "\\section".data ++ lbrace :: "Topic ".data ++ natDigits i ++
      rbrace :: '\n' :: boldPassL (specEscapeL p.data) ++
      '\n' :: '\n' :: specTemplateBody (i + 1) ps

lemma templateBodyAux_eq_spec (ps : List String) : ∀ i,
    templateBodyAux i ps = specTemplateBody i ps := by
  induction ps with
  | nil => intro i; rfl
  | cons p ps' ih =>
    intro i
    rw [templateBodyAux, specTemplateBody, ih (i + 1)]
    rw [formatParagraphForLatex]
    rw [escapeLatexL_eq_spec]

/-- C7.  The template fallback splits the normalized text into blocks at
blank-line boundaries, keeps at most the first 5 non-empty stripped blocks,
and renders each block `N` as a `Topic N` section whose content has the
seven reserved characters individually escaped (character-wise, equivalent
to the source's chain of seven `str.replace` calls) and the fixed keyword
set bold-emphasized case-insensitively; the sections are substituted into
the fixed template together with the title and date. -/
theorem generateTemplateNotes_spec (date text title : String) :
    generateTemplateNotes date text title =
      renderLatexTemplate title date
        ⟨specTemplateBody 1
          (((((splitOnBlankL text.data).map pyStripL).filter (· ≠ [])).map String.mk).take 5)⟩ := by
  rw [generateTemplateNotes]
  rw [templateBodyAux_eq_spec]


lemma pyStripL_idem (l : List Char) : pyStripL (pyStripL l) = pyStripL l :=
  pyStripL_eq_self (fun _ hc => pyStripL_head?_not hc)
    (fun _ hc => pyStripL_getLast?_not hc)

lemma pyStrip_append_dot_eq_self (A : List Char)
    (hA : ∀ c, A.head? = some c → isPySpace c = false) :
    pyStripL (A ++ ['.']) = A ++ ['.'] := by
  refine pyStripL_eq_self ?_ ?_
  · intro c hc
    cases A with
    | nil =>
      cases hc
      decide
    | cons a t =>
      rw [head?_append_left (by simp)] at hc
      exact hA c hc
  · intro c hc
    rw [List.getLast?_append_of_ne_nil _ (by simp)] at hc
    cases hc
    decide

lemma survivor_props {sentTok wordTok : String → List String}
    {stopWords : List String} {text : String} {p : String}
    (hp : p ∈ survivingSentences sentTok wordTok stopWords text) :
    pyStrip p = p ∧ endsWithTerminal p = true := by
  obtain ⟨s, _, _, _, hpeq, _⟩ := survivingSentences_mem hp
  by_cases hterm : endsWithTerminal (pyStrip s) = true
  · rw [if_pos hterm] at hpeq
    subst hpeq
    refine ⟨?_, hterm⟩
    show (⟨pyStripL (pyStrip s).data⟩ : String) = pyStrip s
    rw [pyStrip, pyStripL_idem]
  · rw [Bool.not_eq_true] at hterm
    rw [if_neg (by simp [hterm])] at hpeq
    subst hpeq
    constructor
    · show (⟨pyStripL ((pyStrip s).data ++ ['.'])⟩ : String) = _
      rw [pyStrip_append_dot_eq_self (pyStrip s).data (fun c hc => pyStripL_head?_not hc)]
    · exact endsWithTerminalL_append_dot _

lemma processSentence_fixes_survivor {wordTok : String → List String}
    {stopWords : List String} {p : String}
    (hstrip : pyStrip p = p) (hterm : endsWithTerminal p = true)
    (hcc : 2 ≤ (contentWordsOf wordTok stopWords p).length) :
    processSentence wordTok stopWords p = some p := by
  rw [processSentence]
  dsimp only
  rw [if_neg (by omega), hstrip, if_pos hterm]

/-- C9 (amended).  Once a first pass has run, a second pass changes nothing
provided the first pass's output is already clean: cleaning it only merges
the paragraph breaks back into single spaces, no filler pattern matches any
longer, the sentence tokenizer returns exactly the surviving sentences, and
no short fragments remain (each surviving sentence still shows at least 3
whitespace tokens and 2 content words).  These provisos are the spec's own
"once no fillers/short-fragments remain" hedge plus tokenizer stability. -/
theorem processText_idempotent (sentTok wordTok : String → List String)
    (stopWords : List String) (t : String)
    (h1 : cleanText (processText sentTok wordTok stopWords t) =
      ⟨joinWithL [' ']
        ((survivingSentences sentTok wordTok stopWords t).map String.data)⟩)
    (h2 : removeFillers ⟨joinWithL [' ']
        ((survivingSentences sentTok wordTok stopWords t).map String.data)⟩ =
      ⟨joinWithL [' ']
        ((survivingSentences sentTok wordTok stopWords t).map String.data)⟩)
    (h3 : sentTok ⟨joinWithL [' ']
        ((survivingSentences sentTok wordTok stopWords t).map String.data)⟩ =
      survivingSentences sentTok wordTok stopWords t)
    (h4 : ∀ s ∈ survivingSentences sentTok wordTok stopWords t,
      3 ≤ (pySplitWs s).length ∧
      2 ≤ (contentWordsOf wordTok stopWords s).length) :
    processText sentTok wordTok stopWords (processText sentTok wordTok stopWords t) =
      processText sentTok wordTok stopWords t := by
  have hS2 : survivingSentences sentTok wordTok stopWords
      (processText sentTok wordTok stopWords t) =
      survivingSentences sentTok wordTok stopWords t := by
    rw [survivingSentences, h1, h2, h3]
    have hmap : (survivingSentences sentTok wordTok stopWords t).filterMap
        (fun sentence =>
          if (pySplitWs sentence).length < 3 then none
          else
            match processSentence wordTok stopWords sentence with
            | none => none
            | some p => if p = ⟨[]⟩ then none else some p) =
        (survivingSentences sentTok wordTok stopWords t).map id := by
      refine filterMap_congr_map ?_
      intro s hs
      obtain ⟨hstrip, hterm⟩ := survivor_props hs
      obtain ⟨hlen, hcc⟩ := h4 s hs
      rw [if_neg (by omega)]
      rw [processSentence_fixes_survivor hstrip hterm hcc]
      change (if s = ⟨[]⟩ then none else some s) = some (id s)
      rw [if_neg (endsWithTerminal_ne_empty hterm)]
      rfl
    rw [hmap, List.map_id]
  show createParagraphs (survivingSentences sentTok wordTok stopWords
      (processText sentTok wordTok stopWords t)) = _
  rw [hS2]
  rfl

/-- C9 witness: the amended idempotence theorem applied to concrete
tokenizers and an input that the first pass already leaves clean. -/
theorem processText_idempotent_witness :
    (cleanText (processText demoSentTok demoWordTok demoStopWords
        ("Alpha beta gamma. Delta epsilon zeta.")) =
      ⟨joinWithL [' ']
        ((survivingSentences demoSentTok demoWordTok demoStopWords
          ("Alpha beta gamma. Delta epsilon zeta.")).map String.data)⟩) ∧
    processText demoSentTok demoWordTok demoStopWords
        (processText demoSentTok demoWordTok demoStopWords
          ("Alpha beta gamma. Delta epsilon zeta.")) =
      processText demoSentTok demoWordTok demoStopWords
        ("Alpha beta gamma. Delta epsilon zeta.") :=
  ⟨by decide, processText_idempotent demoSentTok demoWordTok demoStopWords
    ("Alpha beta gamma. Delta epsilon zeta.")
    (by decide) (by decide) (by decide) (by decide)⟩

set_option maxRecDepth 100000 in
/-- C9 counterexample.  The pipeline is not idempotent as claimed: on
`"you um know cats eat fish. dogs drink water slowly."` the first pass
removes `um`, leaving `"you  know"` whose double space defeats the
`\byou know\b` pattern; the final whitespace collapse then reunites
`"you know"`, which the second pass removes. -/
theorem processText_not_idempotent :
    processText demoSentTok demoWordTok demoStopWords
        (processText demoSentTok demoWordTok demoStopWords
          ("you um know cats eat fish. dogs drink water slowly.")) ≠
      processText demoSentTok demoWordTok demoStopWords
        ("you um know cats eat fish. dogs drink water slowly.") := by
  decide

end Transcription
